import Mathlib

/-!
Verification development for the sparkwheel structured-configuration engine.

The embedding models the configuration pipeline: configuration trees
(`Value`), the composition engine (`Merger.merge_configs`, modelled from the
specification because the module `merger.py` imported by `config.py` is not
part of the sources at hand; its callers and tests are), the legacy merge
module `merge.py` (`Legacy.merge_configs`), relative-id resolution
(`resolve_relative_ids` from `config.py` / `config_parser.py`), raw lookups
(`Config.get`), macro expansion (`Config._do_resolve_macros`) and the YAML
loader entry point (`Loader.load_file`).

Python strings are modelled as `List Char`; Python dicts as ordered
association lists with string keys (insertion order preserved, keys unique
in any dict produced by the Python runtime).
-/

namespace Sparkwheel

/-- Python strings, modelled as lists of characters. -/
abbrev Str := List Char

/-- `id.split("::")` for the separator `ID_SEP_KEY = "::"`.
Mirrors Python `str.split`: the empty string yields `[""]`. -/
def splitSep : Str → List Str
  | ':' :: ':' :: rest => [] :: splitSep rest
  | c :: rest =>
    match splitSep rest with
    | s :: ss => (c :: s) :: ss
    | [] => [[c]]
  | [] => [[]]

/-- `"::".join(segments)`. -/
def joinSep : List Str → Str
  | [] => []
  | [s] => s
  | s :: rest => s ++ ':' :: ':' :: joinSep rest

/-- `s.count("::")`: number of non-overlapping occurrences of `"::"`. -/
def countSep : Str → Nat
  | ':' :: ':' :: rest => 1 + countSep rest
  | _ :: rest => countSep rest
  | [] => 0

/-- Length of the maximal run of `"::"` pairs at the head of the string
(the greedy `(::)+` part of the relative-prefix regex). -/
def colonPairs : Str → Nat
  | ':' :: ':' :: rest => 1 + colonPairs rest
  | _ => 0

/-- Scanner for `findRelPrefixes`; the fuel majorizes the string length
so the scan is structurally recursive (hence computable by the kernel). -/
def findRelPrefixesF : Nat → Str → List Str
  | _, [] => []
  | 0, _ => []
  | fuel + 1, c :: rest =>
    if c = '@' ∨ c = '%' then
      let n := colonPairs rest
      if n = 0 then findRelPrefixesF fuel rest
      else (c :: List.replicate (2 * n) ':') :: findRelPrefixesF fuel (rest.drop (2 * n))
    else findRelPrefixesF fuel rest

/-- All matches of the regex `(?:@|%)(::)+` in the string, left to right,
non-overlapping, greedy — as computed by `re.findall` for
`relative_id_prefix`. -/
def findRelPrefixes (s : Str) : List Str := findRelPrefixesF s.length s

/-- Lexicographic strict order on code points, as Python compares strings. -/
def strLtB : Str → Str → Bool
  | [], [] => false
  | [], _ :: _ => true
  | _ :: _, [] => false
  | a :: as, b :: bs => if a < b then true else if a = b then strLtB as bs else false

/-- Insert into a descending-sorted list. -/
def insertDesc (x : Str) : List Str → List Str
  | [] => [x]
  | y :: ys => if strLtB y x then x :: y :: ys else y :: insertDesc x ys

/-- Descending lexicographic sort, as `sorted(…, reverse=True)`. -/
def sortDesc : List Str → List Str
  | [] => []
  | x :: xs => insertDesc x (sortDesc xs)

/-- Helper for `replaceAll`: the pattern is the non-empty string `p :: ps`;
the fuel majorizes the string length, keeping the recursion structural. -/
def replaceAllF (p : Char) (ps repl : Str) : Nat → Str → Str
  | _, [] => []
  | 0, s => s
  | fuel + 1, c :: rest =>
    if (p :: ps).isPrefixOf (c :: rest) then
      repl ++ replaceAllF p ps repl fuel (rest.drop ps.length)
    else
      c :: replaceAllF p ps repl fuel rest

/-- Python `s.replace(pat, repl)`: replace all non-overlapping occurrences,
left to right. -/
def replaceAll (s pat repl : Str) : Str :=
  match pat with
  | [] => s
  | p :: ps => replaceAllF p ps repl s.length s

/-! ## Configuration trees

A `Value` is a YAML-shaped tree: scalars (null, booleans, integers,
floating literals kept as inert text, strings), ordered sequences, and
ordered string-keyed mappings. -/

/-- A configuration tree. Floating-point scalars are carried as their
literal text: the engine never computes with them, it only stores and
compares them. -/
inductive Value : Type
  | null : Value
  | bool : Bool → Value
  | int : Int → Value
  | float : Str → Value
  | str : Str → Value
  | list : List Value → Value
  | dict : List (Str × Value) → Value

/-- `d[k]` lookup in an ordered mapping (first matching key). -/
def lookupKey {α : Type} : List (Str × α) → Str → Option α
  | [], _ => none
  | (k, v) :: rest, key => if k = key then some v else lookupKey rest key

/-- `d[k] = v`: update in place if the key exists (keeping its position),
otherwise append — Python dict assignment. -/
def setKey {α : Type} : List (Str × α) → Str → α → List (Str × α)
  | [], key, v => [(key, v)]
  | (k, w) :: rest, key, v =>
    if k = key then (k, v) :: rest else (k, w) :: setKey rest key v

/-- `del d[k]`: drop the first entry with the given key. -/
def delKey {α : Type} : List (Str × α) → Str → List (Str × α)
  | [], _ => []
  | (k, w) :: rest, key => if k = key then rest else (k, w) :: delKey rest key

/-- The keys of a mapping, in order. -/
def keysOf {α : Type} (l : List (Str × α)) : List Str := l.map Prod.fst

/-- Well-formedness of one mapping level: Python dict keys are unique. -/
def NodupKeys {α : Type} (l : List (Str × α)) : Prop := (keysOf l).Nodup

instance {α : Type} (l : List (Str × α)) : Decidable (NodupKeys l) := by
  unfold NodupKeys; infer_instance

/-! ## The composition engine (Composer)

Modelled from the spec: the module `merger.py` (imported by `config.py` as
the composition engine behind `Config.load`, `Config.merge` and
`Config.update`) is not among the sources at hand — only its callers and
its tests are.  The definitions below follow the specification of the
composer: default compose (mappings merge recursively, sequences
concatenate, scalars replace), `=KEY` replace, `~KEY` remove (null/empty
value: idempotent key delete; list value: batch delete of list indices or
dict sub-keys), and the legacy `+KEY` alias recognized during merge and
treated as default compose. -/

namespace Merger

/-- Failure taxonomy of the composer (`MergeError`). -/
inductive MergeErr : Type
  | cannotRemoveMissing : Str → MergeErr
  | removeBadValue : Str → MergeErr
  | indexOutOfRange : Int → MergeErr
  | indexNotInteger : MergeErr
  | emptyRemoveList : MergeErr
  | removeFromNonCollection : MergeErr
  | removeKeyNotString : MergeErr
  deriving DecidableEq, Repr

/-- Does the override key carry one of the three operator characters
(`=`, `~`) or the legacy `+` alias? -/
def isOpKey : Str → Bool
  | [] => false
  | c :: _ => c = '=' || c = '~' || c = '+'

/-- Strip a single leading operator character, if any. -/
def stripOp : Str → Str
  | [] => []
  | c :: rest => if c = '=' || c = '~' || c = '+' then rest else c :: rest

/-- Normalize and bounds-check the index list of a `~key: [i1, i2, …]`
batch delete against a list of the given length.  Negative indices count
from the end; out-of-range or non-integer indices are fatal. -/
def collectIndices (len : Nat) : List Value → Except MergeErr (List Nat)
  | [] => .ok []
  | Value.int i :: rest =>
    let j : Int := if i < 0 then (len : Int) + i else i
    if 0 ≤ j ∧ j < (len : Int) then
      (collectIndices len rest).map (fun ns => j.toNat :: ns)
    else
      .error (.indexOutOfRange i)
  | _ :: _ => .error .indexNotInteger

/-- Delete the listed positions from a list in one batch, relative to the
pre-operation list; duplicate positions collapse, order is preserved. -/
def removeIdxs (xs : List Value) (ns : List Nat) : List Value :=
  (xs.enum.filter (fun p => ¬ p.1 ∈ ns)).map Prod.snd

/-- Delete the listed sub-keys from a mapping; every key must exist. -/
def removeDictKeys (m : List (Str × Value)) : List Value → Except MergeErr (List (Str × Value))
  | [] => .ok m
  | Value.str k :: rest =>
    if (lookupKey m k).isSome then removeDictKeys (delKey m k) rest
    else .error (.cannotRemoveMissing k)
  | _ :: _ => .error .removeKeyNotString

/-- The `~KEY: value` remove operator applied to one base mapping level. -/
def removeEntry (bs : List (Str × Value)) (key : Str) (v : Value) :
    Except MergeErr (List (Str × Value)) :=
  match v with
  | .null => .ok (delKey bs key)
  | .str [] => .ok (delKey bs key)
  | .list items =>
    if items.isEmpty then .error .emptyRemoveList
    else
      match lookupKey bs key with
      | none => .error (.cannotRemoveMissing key)
      | some (.list xs) =>
        (collectIndices xs.length items).map (fun ns => setKey bs key (.list (removeIdxs xs ns)))
      | some (.dict m) =>
        (removeDictKeys m items).map (fun m2 => setKey bs key (.dict m2))
      | some _ => .error .removeFromNonCollection
  | _ => .error (.removeBadValue key)

mutual

/-- `merge(base, override)`.  If either side is not a mapping the override
replaces the base entirely; for mappings the override entries are applied
in order under their operators. -/
def merge_configs : Value → Value → Except MergeErr Value
  | Value.dict bs, Value.dict os => (mergeEntries bs os).map Value.dict
  | _, o => .ok o

/-- Apply the override entries, in order, to the accumulated base level. -/
def mergeEntries (bs : List (Str × Value)) : List (Str × Value) → Except MergeErr (List (Str × Value))
  | [] => .ok bs
  | (k, v) :: rest => do
    let bs2 ← mergeEntry bs k v
    mergeEntries bs2 rest
termination_by os => (sizeOf os, 0)

/-- Default compose of one entry at a plain (operator-free) key: mappings
merge recursively, sequences concatenate, anything else replaces. -/
def composeEntry (bs : List (Str × Value)) (key : Str) (v : Value) :
    Except MergeErr (List (Str × Value)) :=
  match v with
  | Value.dict om =>
    match lookupKey bs key with
    | some (Value.dict bm) =>
      (mergeEntries bm om).map (fun r => setKey bs key (Value.dict r))
    | _ => .ok (setKey bs key (Value.dict om))
  | Value.list ol =>
    match lookupKey bs key with
    | some (Value.list bl) => .ok (setKey bs key (Value.list (bl ++ ol)))
    | _ => .ok (setKey bs key (Value.list ol))
  | _ => .ok (setKey bs key v)
termination_by (sizeOf v, 0)

/-- Apply one override entry.  `=KEY` installs the value discarding the
base entry, `~KEY` removes, and a plain key (or the legacy `+KEY` alias)
composes. -/
def mergeEntry (bs : List (Str × Value)) (k : Str) (v : Value) :
    Except MergeErr (List (Str × Value)) :=
  match k with
  | [] => composeEntry bs [] v
  | c :: rest =>
    if c = '=' then .ok (setKey bs rest v)
    else if c = '~' then removeEntry bs rest v
    else if c = '+' then composeEntry bs rest v
    else composeEntry bs (c :: rest) v
termination_by (sizeOf v, 1)

end

/-- The base of the running example S4 of the spec:
`{m: {lr: 0.001, h: 512}}`. -/
def exBaseC1 : Value :=
  Value.dict [("m".data,
    Value.dict [("lr".data, Value.float "0.001".data), ("h".data, Value.int 512)])]

/-- The override of example S4: `{m: {dropout: 0.1}}`. -/
def exOverrideC1 : Value :=
  Value.dict [("m".data, Value.dict [("dropout".data, Value.float "0.1".data)])]

/-- The expected composition of example S4. -/
def exResultC1 : Value :=
  Value.dict [("m".data,
    Value.dict [("lr".data, Value.float "0.001".data), ("h".data, Value.int 512),
      ("dropout".data, Value.float "0.1".data)])]

end Merger

/-! ## Relative-id resolution

`Config.resolve_relative_ids` (`config.py`), identical in logic to
`ConfigParser.resolve_relative_ids` (`config_parser.py`): scan the value
for prefixes matching `(?:@|%)(::)+`, process them in descending
lexicographic order, and rewrite each into an absolute prefix of the
current id, raising when a prefix climbs past the root. -/

/-- Generic: is this `Except` an error? -/
def isErr {ε α : Type} : Except ε α → Bool
  | .error _ => true
  | .ok _ => false

/-- The error raised by `resolve_relative_ids`
(`ValueError: relative id out of the range of config content`). -/
inductive RelErr : Type
  | outOfRange : RelErr
  deriving DecidableEq, Repr

/-- `ID_REF_KEY if ID_REF_KEY in p else MACRO_KEY`. -/
def rriSym (p : Str) : Char := if '@' ∈ p then '@' else '%'

/-- The rewriting loop of `resolve_relative_ids`: for each prefix `p`
(already sorted longest-first), count its `::` pairs, raise if the count
exceeds the number of id components, and otherwise substitute the prefix
with the absolute one. -/
def rriLoop (cid : List Str) : List Str → Str → Except RelErr Str
  | [], v => .ok v
  | p :: ps, v =>
    let sym := rriSym p
    let n := countSep (p.drop 1)
    if n > cid.length then .error .outOfRange
    else
      let nw : Str :=
        if n = cid.length then []
        else joinSep (cid.take (cid.length - n)) ++ [':', ':']
      rriLoop cid ps (replaceAll v p (sym :: nw))

/-- `Config.resolve_relative_ids(id, value)`. -/
def resolve_relative_ids (id value : Str) : Except RelErr Str :=
  rriLoop (splitSep id) (sortDesc (findRelPrefixes value).dedup) value

/-- The *specification's* depth of an id: the number of `::`-separated
segments, 0 for the root id `""`.  (Stated from the claim's words, for
comparison against the code's behaviour.) -/
def depthSpec (i : Str) : Nat := if i = [] then 0 else (splitSep i).length

/-! ## Raw lookups: `Config.get` / `Config._get_by_id` (`config.py`) -/

namespace Config

/-- The Python exceptions that `_get_by_id` can raise and `get` catches. -/
inductive PyErr : Type
  | keyError : PyErr
  | indexError : PyErr
  | valueError : PyErr
  deriving DecidableEq, Repr

/-- Digits-only natural-number parse. -/
def digitsVal (s : Str) : Option Nat :=
  if s ≠ [] ∧ s.all Char.isDigit then
    some (s.foldl (fun a c => a * 10 + (c.toNat - '0'.toNat)) 0)
  else none

/-- Python `int(k)` on a decimal string with an optional sign
(`ValueError` modelled as `none`). -/
def parseIntStr : Str → Option Int
  | '-' :: rest => (digitsVal rest).map (fun n => -(n : Int))
  | '+' :: rest => (digitsVal rest).map (fun n => (n : Int))
  | s => (digitsVal s).map (fun n => (n : Int))

/-- One navigation step of `_get_by_id`: dict keys via `look_up_option`
(missing key: `KeyError`), list indices via `config[int(k)]` (negative
indices count from the end, bad index: `IndexError`, non-integer key:
`ValueError`), any other container: `ValueError`. -/
def getSegment (config : Value) (k : Str) : Except PyErr Value :=
  match config with
  | Value.dict es =>
    match lookupKey es k with
    | some v => .ok v
    | none => .error .keyError
  | Value.list xs =>
    match parseIntStr k with
    | none => .error .valueError
    | some i =>
      let j : Int := if i < 0 then (xs.length : Int) + i else i
      if 0 ≤ j ∧ j < (xs.length : Int) then .ok (xs.getD j.toNat Value.null)
      else .error .indexError
  | _ => .error .valueError

/-- The loop of `_get_by_id` over `split_id(id)`. -/
def getByIdAux : Value → List Str → Except PyErr Value
  | config, [] => .ok config
  | config, k :: ks => (getSegment config k).bind (fun v => getByIdAux v ks)

/-- `Config._get_by_id(id)`: the raw lookup; the empty id denotes the
whole tree. -/
def _get_by_id (data : Value) (id : Str) : Except PyErr Value :=
  if id = [] then .ok data else getByIdAux data (splitSep id)

/-- `Config.get(id, default=None)`: try `_get_by_id` and return `default`
on `KeyError`, `IndexError` or `ValueError` — the only exceptions the
lookup raises. -/
def get (data : Value) (id : Str) (dflt : Value := Value.null) : Except PyErr Value :=
  match _get_by_id data id with
  | .ok v => .ok v
  | .error _ => .ok dflt

end Config

/-! ## The loader entry point: `Loader.load_file` (`loader.py`) -/

namespace Loader

/-- Failure taxonomy of `load_file`. -/
inductive LoadErr : Type
  | badExtension : LoadErr
  | ioError : LoadErr
  deriving DecidableEq, Repr

/-- The metadata registry: absolute id → source line.  `load_file` returns
a fresh empty one for an empty path; its precise payload is irrelevant
here. -/
abbrev Registry := List (Str × Nat)

/-- `re.match(r".*\.(yaml|yml)$", s, re.IGNORECASE)` as a predicate:
`.` does not cross newlines and `$` also matches just before one final
newline, so the string (up to one trailing newline) must be free of
newlines and end in `.yaml`/`.yml` case-insensitively. -/
def pathMatches (s : Str) : Bool :=
  let t := if s.getLast? = some '\n' then s.dropLast else s
  (¬ t.contains '\n') &&
    (List.isSuffixOf ".yaml".data (t.map Char.toLower) ||
     List.isSuffixOf ".yml".data (t.map Char.toLower))

mutual

/-- `Loader._strip_metadata`: drop `__sparkwheel_metadata__` keys from
every mapping level. -/
def _strip_metadata : Value → Value
  | Value.dict es => Value.dict (stripEntries es)
  | Value.list xs => Value.list (stripList xs)
  | v => v
termination_by v => sizeOf v

/-- `_strip_metadata` over the entries of one mapping. -/
def stripEntries : List (Str × Value) → List (Str × Value)
  | [] => []
  | (k, v) :: rest =>
    if k = "__sparkwheel_metadata__".data then stripEntries rest
    else (k, _strip_metadata v) :: stripEntries rest
termination_by es => sizeOf es

/-- `_strip_metadata` over the items of one sequence. -/
def stripList : List Value → List Value
  | [] => []
  | v :: rest => _strip_metadata v :: stripList rest
termination_by xs => sizeOf xs

end

/-- `Loader.load_file(filepath)`.

The host-system pieces are parameters: `norm` models `str(Path(·))`,
`reslv` models `Path(·).resolve()`, and `fs` models
`open` + `yaml.load` with the metadata-tracking loader (`none` when the
file cannot be read; the `config is None → {}` defaulting is part of the
oracle).  A falsy (empty) path short-circuits to an empty tree and a
fresh empty registry before any validation or I/O. -/
def load_file (norm reslv : Str → Str) (fs : Str → Option (Value × Registry))
    (filepath : Str) : Except LoadErr (Value × Registry) :=
  if filepath = [] then .ok (Value.dict [], ([] : Registry))
  else
    let fstr := norm filepath
    if ¬ pathMatches fstr then .error .badExtension
    else
      match fs (reslv fstr) with
      | some (v, reg) => .ok (_strip_metadata v, reg)
      | none => .error .ioError

end Loader

/-! ## The legacy merge module (`merge.py`)

`merge_configs(base, override, _in_merge_context)` with `+`/`~`
directives and implicit propagation.  Two embeddings: a pure value-level
one, and a labelled one (`LValue`) in which every mutable node (dict or
list) carries a heap label, `deepcopy` allocates fresh labels, and the
labels of the dict nodes mutated in place (`del result[k]`,
`result[k] = …`) are logged — making the frame claim about the base
argument expressible. -/

namespace Legacy

/-- `ConfigMergeError` cases of the legacy merge module. -/
inductive LegacyErr : Type
  | deleteMissing : Str → LegacyErr
  | mergeMissing : Str → LegacyErr
  | typeMismatch : Str → LegacyErr
  deriving DecidableEq, Repr

mutual

/-- `_has_merge_directive(config)`: does a dict (recursively through dict
values only) contain a key starting with `+`? -/
def _has_merge_directive : Value → Bool
  | Value.dict es => hasDirEntries es
  | _ => false

/-- Key-by-key scan of `_has_merge_directive`. -/
def hasDirEntries : List (Str × Value) → Bool
  | [] => false
  | (k, v) :: rest =>
    (match k with | '+' :: _ => true | _ => false)
      || _has_merge_directive v || hasDirEntries rest

end

mutual

/-- `merge_configs(base, override, _in_merge_context)` of `merge.py`,
value level (`deepcopy` is the identity on pure trees).  Non-dict on
either side: the override replaces the base. -/
def merge_configs (base override : Value) (ctx : Bool) : Except LegacyErr Value :=
  match base, override with
  | Value.dict bs, Value.dict os => (entriesGo bs os ctx).map Value.dict
  | _, o => .ok o

/-- The `for key, value in override.items()` loop acting on the result
entries. -/
def entriesGo (res : List (Str × Value)) (os : List (Str × Value)) (ctx : Bool) :
    Except LegacyErr (List (Str × Value)) :=
  match os with
  | [] => .ok res
  | (k, v) :: rest => do
    let res2 ← entryGo res k v ctx
    entriesGo res2 rest ctx
termination_by (sizeOf os, 2)

/-- One iteration of the legacy merge loop: `~key` deletes (the key must
exist), `+key` merges (the key must exist and types must match), a plain
key replaces unless implicit propagation merges dicts. -/
def entryGo (res : List (Str × Value)) (k : Str) (v : Value) (ctx : Bool) :
    Except LegacyErr (List (Str × Value)) :=
  match k with
  | [] => plainGo res [] v ctx
  | c :: actual =>
    if c = '~' then
      match lookupKey res actual with
      | none => .error (.deleteMissing actual)
      | some _ => .ok (delKey res actual)
    else if c = '+' then plusGo res actual v
    else plainGo res (c :: actual) v ctx
termination_by (sizeOf v, 1)

/-- The `+key` branch: both dicts merge recursively (in merge context),
both lists append, anything else is a type mismatch. -/
def plusGo (res : List (Str × Value)) (actual : Str) (v : Value) :
    Except LegacyErr (List (Str × Value)) :=
  match lookupKey res actual with
  | none => .error (.mergeMissing actual)
  | some (Value.dict bm) =>
    match v with
    | Value.dict om => (entriesGo bm om true).map (fun r => setKey res actual (Value.dict r))
    | _ => .error (.typeMismatch actual)
  | some (Value.list bl) =>
    match v with
    | Value.list ol => .ok (setKey res actual (Value.list (bl ++ ol)))
    | _ => .error (.typeMismatch actual)
  | some _ => .error (.typeMismatch actual)
termination_by (sizeOf v, 0)

/-- A plain key: merge recursively when in merge context or the value
carries a nested `+` directive and both sides are dicts; otherwise
replace with a deep copy of the value. -/
def plainGo (res : List (Str × Value)) (key : Str) (v : Value) (ctx : Bool) :
    Except LegacyErr (List (Str × Value)) :=
  let should := ctx || _has_merge_directive v
  match v with
  | Value.dict om =>
    match lookupKey res key with
    | some (Value.dict bm) =>
      if should then (entriesGo bm om true).map (fun r => setKey res key (Value.dict r))
      else .ok (setKey res key (Value.dict om))
    | _ => .ok (setKey res key (Value.dict om))
  | _ => .ok (setKey res key v)
termination_by (sizeOf v, 0)

end

end Legacy

/-! ## Labelled trees

`LValue` is a configuration tree whose mutable nodes (dicts and lists)
carry heap labels.  Two occurrences of the same label denote the same
Python object, so an in-place mutation at a label is visible through
every alias.  `deepcopy` allocates fresh labels. -/

/-- A labelled configuration tree. -/
inductive LValue : Type
  | null : LValue
  | bool : Bool → LValue
  | int : Int → LValue
  | float : Str → LValue
  | str : Str → LValue
  | list : Nat → List LValue → LValue
  | dict : Nat → List (Str × LValue) → LValue

mutual

/-- Forget the labels. -/
def erase : LValue → Value
  | LValue.null => Value.null
  | LValue.bool b => Value.bool b
  | LValue.int n => Value.int n
  | LValue.float s => Value.float s
  | LValue.str s => Value.str s
  | LValue.list _ xs => Value.list (eraseList xs)
  | LValue.dict _ es => Value.dict (eraseEntries es)

/-- Forget the labels of the items of a sequence. -/
def eraseList : List LValue → List Value
  | [] => []
  | v :: rest => erase v :: eraseList rest

/-- Forget the labels of the entries of a mapping. -/
def eraseEntries : List (Str × LValue) → List (Str × Value)
  | [] => []
  | (k, v) :: rest => (k, erase v) :: eraseEntries rest

end

mutual

/-- All heap labels occurring in a labelled tree. -/
def labelsOf : LValue → List Nat
  | LValue.list lab xs => lab :: labelsList xs
  | LValue.dict lab es => lab :: labelsEntries es
  | _ => []

/-- Labels of the items of a sequence. -/
def labelsList : List LValue → List Nat
  | [] => []
  | v :: rest => labelsOf v ++ labelsList rest

/-- Labels of the entries of a mapping. -/
def labelsEntries : List (Str × LValue) → List Nat
  | [] => []
  | (_, v) :: rest => labelsOf v ++ labelsEntries rest

end

mutual

/-- `copy.deepcopy`: rebuild the tree, giving every mutable node a fresh
label drawn from the counter. -/
def deepcopyL : LValue → Nat → LValue × Nat
  | LValue.list _ xs, f =>
    let (xs2, f2) := dcList xs (f + 1)
    (LValue.list f xs2, f2)
  | LValue.dict _ es, f =>
    let (es2, f2) := dcEntries es (f + 1)
    (LValue.dict f es2, f2)
  | v, f => (v, f)

/-- `deepcopy` of the items of a sequence. -/
def dcList : List LValue → Nat → List LValue × Nat
  | [], f => ([], f)
  | v :: rest, f =>
    let (v2, f2) := deepcopyL v f
    let (rest2, f3) := dcList rest f2
    (v2 :: rest2, f3)

/-- `deepcopy` of the entries of a mapping. -/
def dcEntries : List (Str × LValue) → Nat → List (Str × LValue) × Nat
  | [], f => ([], f)
  | (k, v) :: rest, f =>
    let (v2, f2) := deepcopyL v f
    let (rest2, f3) := dcEntries rest f2
    ((k, v2) :: rest2, f3)

end

mutual

/-- Label a freshly loaded (unlabelled) tree: every node of a tree built
from scratch is a brand-new Python object. -/
def labelValue : Value → Nat → LValue × Nat
  | Value.null, f => (LValue.null, f)
  | Value.bool b, f => (LValue.bool b, f)
  | Value.int n, f => (LValue.int n, f)
  | Value.float s, f => (LValue.float s, f)
  | Value.str s, f => (LValue.str s, f)
  | Value.list xs, f =>
    let (xs2, f2) := lvList xs (f + 1)
    (LValue.list f xs2, f2)
  | Value.dict es, f =>
    let (es2, f2) := lvEntries es (f + 1)
    (LValue.dict f es2, f2)

/-- Label the items of a sequence. -/
def lvList : List Value → Nat → List LValue × Nat
  | [], f => ([], f)
  | v :: rest, f =>
    let (v2, f2) := labelValue v f
    let (rest2, f3) := lvList rest f2
    (v2 :: rest2, f3)

/-- Label the entries of a mapping. -/
def lvEntries : List (Str × Value) → Nat → List (Str × LValue) × Nat
  | [], f => ([], f)
  | (k, v) :: rest, f =>
    let (v2, f2) := labelValue v f
    let (rest2, f3) := lvEntries rest f2
    ((k, v2) :: rest2, f3)

end

mutual

/-- In-place mutation `obj[k] = v` on the dict object with the given heap
label: every aliased occurrence of that dict node receives the new entry;
the installed value itself is not traversed. -/
def mutateByLabel (lab : Nat) (k : Str) (v : LValue) : LValue → LValue
  | LValue.dict l es =>
    let es2 := mutEntries lab k v es
    if l = lab then LValue.dict l (setKey es2 k v) else LValue.dict l es2
  | LValue.list l xs => LValue.list l (mutList lab k v xs)
  | x => x

/-- `mutateByLabel` through the items of a sequence. -/
def mutList (lab : Nat) (k : Str) (v : LValue) : List LValue → List LValue
  | [] => []
  | x :: rest => mutateByLabel lab k v x :: mutList lab k v rest

/-- `mutateByLabel` through the entries of a mapping. -/
def mutEntries (lab : Nat) (k : Str) (v : LValue) :
    List (Str × LValue) → List (Str × LValue)
  | [] => []
  | (k2, x) :: rest => (k2, mutateByLabel lab k v x) :: mutEntries lab k v rest

end

namespace Legacy

/-- State threaded through the labelled legacy merge: the fresh-label
counter and the log of labels of the dict nodes mutated in place. -/
abbrev MSt := Nat × List Nat

/-- State-evolution invariant of the labelled legacy merge: the fresh
counter never decreases and every newly logged label is at least the
ghost bound `b`; the old log entries are carried over. -/
def FreshOut {α : Type} (st : MSt) (b : Nat) (out : α × MSt) : Prop :=
  st.1 ≤ out.2.1 ∧ ∀ l ∈ out.2.2, l ∈ st.2 ∨ b ≤ l

mutual

/-- `_has_merge_directive` over labelled trees. -/
def hasDirectiveL : LValue → Bool
  | LValue.dict _ es => hasDirEntriesL es
  | _ => false

/-- Key-by-key scan of `hasDirectiveL`. -/
def hasDirEntriesL : List (Str × LValue) → Bool
  | [] => false
  | (k, v) :: rest =>
    (match k with | '+' :: _ => true | _ => false)
      || hasDirectiveL v || hasDirEntriesL rest

end

mutual

/-- `merge_configs` of `merge.py` over labelled trees.  The returned
state carries the advanced fresh-label counter and the log of every dict
label written or deleted in place. -/
def merge_configsL (base override : LValue) (ctx : Bool) (st : MSt) :
    Except LegacyErr LValue × MSt :=
  match base, override with
  | LValue.dict lb bs, LValue.dict _ os => dictsGoL (LValue.dict lb bs) os ctx st
  | _, o =>
    let (o2, f2) := deepcopyL o st.1
    (.ok o2, (f2, st.2))

/-- Both sides are dicts: `result = deepcopy(base)` and then the loop
over the override entries, mutating the fresh result root. -/
def dictsGoL (base : LValue) (os : List (Str × LValue)) (ctx : Bool) (st : MSt) :
    Except LegacyErr LValue × MSt :=
  let (res, f2) := deepcopyL base st.1
  match res with
  | LValue.dict lr es => entriesGoL es lr os ctx (f2, st.2)
  | other => (.ok other, (f2, st.2))
termination_by (sizeOf os, 3)

/-- The loop over the override entries (labelled). -/
def entriesGoL (res : List (Str × LValue)) (lr : Nat) (os : List (Str × LValue))
    (ctx : Bool) (st : MSt) : Except LegacyErr LValue × MSt :=
  match os with
  | [] => (.ok (LValue.dict lr res), st)
  | (k, v) :: rest =>
    match entryGoL res lr k v ctx st with
    | (.ok res2, st2) => entriesGoL res2 lr rest ctx st2
    | (.error e, st2) => (.error e, st2)
termination_by (sizeOf os, 2)

/-- One loop iteration (labelled); every branch that assigns or deletes
on the result root logs its label `lr`. -/
def entryGoL (res : List (Str × LValue)) (lr : Nat) (k : Str) (v : LValue)
    (ctx : Bool) (st : MSt) : Except LegacyErr (List (Str × LValue)) × MSt :=
  match k with
  | [] => plainGoL res lr [] v ctx st
  | c :: actual =>
    if c = '~' then
      match lookupKey res actual with
      | none => (.error (.deleteMissing actual), st)
      | some _ => (.ok (delKey res actual), (st.1, lr :: st.2))
    else if c = '+' then plusGoL res lr actual v st
    else plainGoL res lr (c :: actual) v ctx st
termination_by (sizeOf v, 1)

/-- The `+key` branch (labelled).  List append allocates a new list
object (fresh label) sharing its elements with both sides. -/
def plusGoL (res : List (Str × LValue)) (lr : Nat) (actual : Str) (v : LValue)
    (st : MSt) : Except LegacyErr (List (Str × LValue)) × MSt :=
  match lookupKey res actual with
  | none => (.error (.mergeMissing actual), st)
  | some (LValue.dict lb bm) =>
    match v with
    | LValue.dict _ om =>
      match dictsGoL (LValue.dict lb bm) om true st with
      | (.ok r, st2) => (.ok (setKey res actual r), (st2.1, lr :: st2.2))
      | (.error e, st2) => (.error e, st2)
    | _ => (.error (.typeMismatch actual), st)
  | some (LValue.list _ bl) =>
    match v with
    | LValue.list _ ol =>
      (.ok (setKey res actual (LValue.list st.1 (bl ++ ol))), (st.1 + 1, lr :: st.2))
    | _ => (.error (.typeMismatch actual), st)
  | some _ => (.error (.typeMismatch actual), st)
termination_by (sizeOf v, 0)

/-- A plain key (labelled): implicit-propagation merge or
`result[key] = deepcopy(value)`. -/
def plainGoL (res : List (Str × LValue)) (lr : Nat) (key : Str) (v : LValue)
    (ctx : Bool) (st : MSt) : Except LegacyErr (List (Str × LValue)) × MSt :=
  let should := ctx || hasDirectiveL v
  match v with
  | LValue.dict lv om =>
    match lookupKey res key with
    | some (LValue.dict lb bm) =>
      if should then
        match dictsGoL (LValue.dict lb bm) om true st with
        | (.ok r, st2) => (.ok (setKey res key r), (st2.1, lr :: st2.2))
        | (.error e, st2) => (.error e, st2)
      else
        let (v2, f2) := deepcopyL (LValue.dict lv om) st.1
        (.ok (setKey res key v2), (f2, lr :: st.2))
    | _ =>
      let (v2, f2) := deepcopyL (LValue.dict lv om) st.1
      (.ok (setKey res key v2), (f2, lr :: st.2))
  | _ =>
    let (v2, f2) := deepcopyL v st.1
    (.ok (setKey res key v2), (f2, lr :: st.2))
termination_by (sizeOf v, 0)

end

end Legacy

/-! ## Macro expansion: `Config._do_resolve_macros` (`config.py`)

The recursion is modelled as a walk over paths into the current root
tree: Python's in-place child updates (`config[k] = …`) become functional
updates of the root along the path, which preserves the aliasing
structure because the spine labels are kept.  File loading is an oracle;
a fuel parameter majorizes the recursion depth (macro chains through
arbitrary files need not terminate structurally). -/

/-- Navigate one labelled segment, as `Config._get_by_id` does. -/
def getSegL (node : LValue) (k : Str) : Except Config.PyErr LValue :=
  match node with
  | LValue.dict _ es =>
    match lookupKey es k with
    | some v => .ok v
    | none => .error .keyError
  | LValue.list _ xs =>
    match Config.parseIntStr k with
    | none => .error .valueError
    | some i =>
      let j : Int := if i < 0 then (xs.length : Int) + i else i
      if 0 ≤ j ∧ j < (xs.length : Int) then .ok (xs.getD j.toNat LValue.null)
      else .error .indexError
  | _ => .error .valueError

/-- Labelled lookup along a path of segments. -/
def getPathL : LValue → List Str → Except Config.PyErr LValue
  | node, [] => .ok node
  | node, k :: ks => (getSegL node k).bind (fun v => getPathL v ks)

/-- Functional update along a path, keeping the labels of the spine —
the in-place child assignment `config[k] = value`. -/
def setPathL : LValue → List Str → LValue → LValue
  | _, [], v => v
  | node, k :: ks, v =>
    match node with
    | LValue.dict lab es =>
      match lookupKey es k with
      | some child => LValue.dict lab (setKey es k (setPathL child ks v))
      | none => LValue.dict lab es
    | LValue.list lab xs =>
      match Config.parseIntStr k with
      | some i =>
        let j : Int := if i < 0 then (xs.length : Int) + i else i
        if 0 ≤ j ∧ j < (xs.length : Int) then
          LValue.list lab (xs.set j.toNat (setPathL (xs.getD j.toNat LValue.null) ks v))
        else LValue.list lab xs
      | none => LValue.list lab xs
    | other => other

/-- Candidate match lengths for the file part of `split_path_id`:
a prefix of length `n` ending (case-insensitively) in `.yaml`/`.yml`,
followed by `::` or the end of the string. -/
def yamlCand (src : Str) (n : Nat) : Bool :=
  let t := src.take n
  decide (1 ≤ n) && (¬ t.contains '\n') &&
    (List.isSuffixOf ".yaml".data (t.map Char.toLower) ||
     List.isSuffixOf ".yml".data (t.map Char.toLower)) &&
    (decide (n = src.length) || [':', ':'].isPrefixOf (src.drop n))

/-- The leftmost-longest (greedy, from position 0) file-part length. -/
def bestYamlN (src : Str) : Option Nat :=
  (List.range (src.length + 1)).reverse.find? (yamlCand src)

/-- Position of the last occurrence of `pat` in `src` (Python `rsplit`). -/
def lastOcc (src pat : Str) : Option Nat :=
  (List.range (src.length + 1)).reverse.find? (fun m => pat.isPrefixOf (src.drop m))

/-- `Config.split_path_id(src)`: split into `(filepath, id)`; no file
part yields `("", src)`. -/
def split_path_id (src : Str) : Str × Str :=
  match bestYamlN src with
  | none => ([], src)
  | some n =>
    let pathName := src.take n
    match lastOcc src pathName with
    | some m =>
      let ids := src.drop (m + pathName.length)
      (pathName, if [':', ':'].isPrefixOf ids then ids.drop 2 else [])
    | none => ([], src)

/-- Decimal string of a list index. -/
def idxKeys (n : Nat) : List Str := (List.range n).map (fun i => (Nat.repr i).data)

/-- Failure taxonomy of macro resolution. -/
inductive MacroErr : Type
  | circular : MacroErr
  | keyNotFound : MacroErr
  | relIdError : MacroErr
  | loadFail : MacroErr
  | fuelOut : MacroErr
  deriving DecidableEq, Repr

/-- A pending call of the macro-resolution recursion: a node to resolve,
a child-iteration state, or a string-scalar rewrite. -/
inductive MCall : Type
  | node : LValue → List Str → List Str → Nat → MCall
  | kids : LValue → List Str → List Str → List Str → Nat → MCall
  | strc : LValue → List Str → List Str → Nat → Str → MCall

/-- The result of a pending call: for a node, the updated root, the
node's return value and the counter; for a child iteration, the updated
root and the counter. -/
inductive MOut : Type
  | node : LValue → LValue → Nat → MOut
  | kids : LValue → Nat → MOut

/-- One engine for the mutually recursive pieces of
`Config._do_resolve_macros`, structurally recursive on the fuel (which
majorizes the recursion depth; macro chains through oracle-loaded files
admit no structural bound).

`MCall.node root path stack f` resolves the node at `path`: recurse into
children (writing results back in place), then rewrite string scalars —
resolve relative ids and expand a `%` macro into a deep copy of the
(recursively resolved) referenced subtree, guarding against cycles with
the stack.  `MCall.kids` iterates the snapshotted child keys.
`MCall.strc` is the string case. -/
def macroStep (oracle : Str → Option Value) : Nat → MCall → Except MacroErr MOut
  | 0, _ => .error .fuelOut
  | fuel + 1, MCall.node root path stack f =>
    match getPathL root path with
    | .error _ => .error .keyNotFound
    | .ok node =>
      match node with
      | LValue.dict _ es =>
        match macroStep oracle fuel (MCall.kids root path (keysOf es) stack f) with
        | .ok (MOut.kids root2 f2) =>
          match getPathL root2 path with
          | .ok n2 => .ok (MOut.node root2 n2 f2)
          | .error _ => .error .keyNotFound
        | .ok other => .ok other
        | .error e => .error e
      | LValue.list _ xs =>
        match macroStep oracle fuel (MCall.kids root path (idxKeys xs.length) stack f) with
        | .ok (MOut.kids root2 f2) =>
          match getPathL root2 path with
          | .ok n2 => .ok (MOut.node root2 n2 f2)
          | .error _ => .error .keyNotFound
        | .ok other => .ok other
        | .error e => .error e
      | LValue.str s => macroStep oracle fuel (MCall.strc root path stack f s)
      | other => .ok (MOut.node root other f)
  | _ + 1, MCall.kids root _ [] _ f => .ok (MOut.kids root f)
  | fuel + 1, MCall.kids root path (k :: ks) stack f =>
    match macroStep oracle fuel (MCall.node root (path ++ [k]) stack f) with
    | .ok (MOut.node root2 v f2) =>
      macroStep oracle fuel (MCall.kids (setPathL root2 (path ++ [k]) v) path ks stack f2)
    | .ok other => .ok other
    | .error e => .error e
  | fuel + 1, MCall.strc root path stack f s =>
    match resolve_relative_ids (joinSep path) s with
    | .error _ => .error .relIdError
    | .ok s2 =>
      if s2.head? = some '%' then
        if s2 ∈ stack then .error .circular
        else
          let pi := split_path_id (s2.drop 1)
          let segs := if pi.2 = [] then [] else splitSep pi.2
          if pi.1 = [] then
            match macroStep oracle fuel (MCall.node root segs (s2 :: stack) f) with
            | .ok (MOut.node root2 v f2) =>
              let (cp, f3) := deepcopyL v f2
              .ok (MOut.node root2 cp f3)
            | .ok other => .ok other
            | .error e => .error e
          else
            match oracle pi.1 with
            | none => .error .loadFail
            | some val =>
              let (lv, f1) := labelValue val f
              match macroStep oracle fuel (MCall.node lv segs (s2 :: stack) f1) with
              | .ok (MOut.node _ v f2) =>
                let (cp, f3) := deepcopyL v f2
                .ok (MOut.node root cp f3)
              | .ok other => .ok other
              | .error e => .error e
      else .ok (MOut.node root (LValue.str s2) f)

/-- `Config._do_resolve_macros(config, id, _macro_stack)`: resolve the
node at `path` of `root`, returning the updated root, the return value
and the advanced counter. -/
def _do_resolve_macros (oracle : Str → Option Value) (fuel : Nat) (root : LValue)
    (path : List Str) (stack : List Str) (f : Nat) :
    Except MacroErr (LValue × LValue × Nat) :=
  match macroStep oracle fuel (MCall.node root path stack f) with
  | .ok (MOut.node r v f2) => .ok (r, v, f2)
  | .ok _ => .error .fuelOut
  | .error e => .error e

/-- Read the unlabelled value at a path of a labelled tree (for stating
what a mutation did and did not change). -/
def eraseAt (root : LValue) (path : List Str) : Option Value :=
  (getPathL root path).toOption.map erase

/-- The S8 example config `{t: {a: 1}, c: "%t"}` as a labelled tree:
the root dict is object 0, the `t` sub-dict object 1, counter at 2. -/
def exConfigC8 : LValue :=
  LValue.dict 0 [("t".data, LValue.dict 1 [("a".data, LValue.int 1)]),
    ("c".data, LValue.str "%t".data)]

/-- The S8 example after macro resolution: the macro `"%t"` at `c` was
replaced by a deep copy of the sub-tree at `t` — a fresh object 2 whose
content equals `t`'s but which shares no labels with it. -/
def exResolvedC8 : LValue :=
  LValue.dict 0 [("t".data, LValue.dict 1 [("a".data, LValue.int 1)]),
    ("c".data, LValue.dict 2 [("a".data, LValue.int 1)])]

/-- Forget labels inside an `Except` result. -/
def eraseExc : Except Legacy.LegacyErr LValue → Except Legacy.LegacyErr Value
  | .ok v => .ok (erase v)
  | .error e => .error e

/-- Forget labels inside an `Except` result carrying mapping entries. -/
def eraseExcEntries :
    Except Legacy.LegacyErr (List (Str × LValue)) →
      Except Legacy.LegacyErr (List (Str × Value))
  | .ok es => .ok (eraseEntries es)
  | .error e => .error e

/-! ## Ordered-mapping lemmas -/

theorem keysOf_cons {α : Type} (k : Str) (v : α) (t : List (Str × α)) :
    keysOf ((k, v) :: t) = k :: keysOf t := rfl

theorem lookupKey_eq_none_iff {α : Type} (l : List (Str × α)) (k : Str) :
    lookupKey l k = none ↔ k ∉ keysOf l := by
  induction l with
  | nil => simp [lookupKey, keysOf]
  | cons hd t ih =>
    obtain ⟨k2, w⟩ := hd
    rw [keysOf_cons]
    by_cases hk : k2 = k
    · subst hk
      simp [lookupKey]
    · simp only [lookupKey, if_neg hk, List.mem_cons, ih]
      constructor
      · intro h hm
        rcases hm with hm | hm
        · exact hk hm.symm
        · exact h hm
      · intro h hm
        exact h (Or.inr hm)

theorem lookupKey_setKey_self {α : Type} (l : List (Str × α)) (k : Str) (v : α) :
    lookupKey (setKey l k v) k = some v := by
  induction l with
  | nil => simp [setKey, lookupKey]
  | cons hd t ih =>
    obtain ⟨k2, w⟩ := hd
    by_cases hk : k2 = k
    · simp [setKey, if_pos hk, lookupKey, hk]
    · simp [setKey, if_neg hk, lookupKey, hk, ih]

theorem lookupKey_setKey_ne {α : Type} (l : List (Str × α)) (k k2 : Str) (v : α)
    (h : k ≠ k2) : lookupKey (setKey l k v) k2 = lookupKey l k2 := by
  induction l with
  | nil => simp [setKey, lookupKey, h]
  | cons hd t ih =>
    obtain ⟨k3, w⟩ := hd
    by_cases hk : k3 = k
    · subst hk
      have hk2 : ¬ k3 = k2 := fun hh => h hh
      simp [setKey, lookupKey, if_neg hk2]
    · simp only [setKey, if_neg hk, lookupKey]
      by_cases hk2 : k3 = k2
      · simp [if_pos hk2]
      · simp [if_neg hk2, ih]

theorem lookupKey_delKey_ne {α : Type} (l : List (Str × α)) (k k2 : Str)
    (h : k ≠ k2) : lookupKey (delKey l k) k2 = lookupKey l k2 := by
  induction l with
  | nil => simp [delKey]
  | cons hd t ih =>
    obtain ⟨k3, w⟩ := hd
    by_cases hk : k3 = k
    · subst hk
      have hk2 : ¬ k3 = k2 := fun hh => h hh
      simp [delKey, lookupKey, if_neg hk2]
    · simp only [delKey, if_neg hk, lookupKey]
      by_cases hk2 : k3 = k2
      · simp [if_pos hk2]
      · simp [if_neg hk2, ih]

theorem delKey_of_lookup_none {α : Type} (l : List (Str × α)) (k : Str)
    (h : lookupKey l k = none) : delKey l k = l := by
  induction l with
  | nil => simp [delKey]
  | cons hd t ih =>
    obtain ⟨k2, w⟩ := hd
    by_cases hk : k2 = k
    · simp [lookupKey, if_pos hk] at h
    · simp only [lookupKey, if_neg hk] at h
      simp [delKey, if_neg hk, ih h]

theorem lookupKey_delKey_self {α : Type} (l : List (Str × α)) (k : Str)
    (h : NodupKeys l) : lookupKey (delKey l k) k = none := by
  induction l with
  | nil => simp [delKey, lookupKey]
  | cons hd t ih =>
    obtain ⟨k2, w⟩ := hd
    rw [NodupKeys, keysOf_cons, List.nodup_cons] at h
    by_cases hk : k2 = k
    · subst hk
      simp only [delKey, if_pos rfl]
      exact (lookupKey_eq_none_iff t k2).2 h.1
    · simp only [delKey, if_neg hk, lookupKey, if_neg hk]
      exact ih h.2

/-! ## Structure lemmas for the composition engine -/

namespace Merger

theorem except_bind_ok {ε α : Type} (x : Except ε α) :
    (x.bind fun a => Except.ok a) = x := by
  cases x <;> rfl

theorem mergeEntries_nil (bs : List (Str × Value)) : mergeEntries bs [] = .ok bs := by
  simp [mergeEntries]

theorem mergeEntries_cons (bs : List (Str × Value)) (k : Str) (v : Value)
    (rest : List (Str × Value)) :
    mergeEntries bs ((k, v) :: rest) =
      (mergeEntry bs k v).bind (fun bs2 => mergeEntries bs2 rest) := by
  rw [mergeEntries]
  rfl

/-- A key free of operator characters goes through default compose. -/
theorem mergeEntry_plain (bs : List (Str × Value)) (k : Str) (v : Value)
    (h : isOpKey k = false) : mergeEntry bs k v = composeEntry bs k v := by
  match k with
  | [] => simp [mergeEntry]
  | c :: rest =>
    simp only [isOpKey, Bool.or_eq_false_iff, decide_eq_false_iff_not] at h
    simp [mergeEntry, h.1.1, h.1.2, h.2]

/-- The legacy `+` alias strips to default compose. -/
theorem mergeEntry_plus (bs : List (Str × Value)) (k : Str) (v : Value) :
    mergeEntry bs ('+' :: k) v = composeEntry bs k v := by
  simp [mergeEntry]

/-- The `=` operator installs the value unconditionally. -/
theorem mergeEntry_replace (bs : List (Str × Value)) (k : Str) (v : Value) :
    mergeEntry bs ('=' :: k) v = .ok (setKey bs k v) := by
  simp [mergeEntry]

/-- The `~` operator delegates to `removeEntry`. -/
theorem mergeEntry_remove (bs : List (Str × Value)) (k : Str) (v : Value) :
    mergeEntry bs ('~' :: k) v = removeEntry bs k v := by
  simp [mergeEntry]

/-- Merging a single-entry override mapping. -/
theorem merge_configs_single (bs : List (Str × Value)) (k : Str) (v : Value) :
    merge_configs (Value.dict bs) (Value.dict [(k, v)]) =
      (mergeEntry bs k v).map Value.dict := by
  rw [merge_configs, mergeEntries_cons]
  cases h : mergeEntry bs k v <;> simp [h, mergeEntries_nil, Except.map, Except.bind]

/-- Default compose at a key whose base and override values are both
mappings recurses into `mergeEntries`. -/
theorem composeEntry_dict (bs : List (Str × Value)) (key : Str)
    (bm om : List (Str × Value)) (h : lookupKey bs key = some (Value.dict bm)) :
    composeEntry bs key (Value.dict om) =
      (mergeEntries bm om).map (fun r => setKey bs key (Value.dict r)) := by
  simp [composeEntry, h]

theorem except_map_ok {ε α β : Type} (f : α → β) (x : Except ε α) (y : β)
    (h : x.map f = .ok y) : ∃ a, x = .ok a ∧ y = f a := by
  cases x with
  | ok a => exact ⟨a, rfl, by cases h; rfl⟩
  | error e => cases h

/-- A successful `composeEntry` only writes at its own key. -/
theorem composeEntry_shape (bs : List (Str × Value)) (key : Str) (v : Value)
    (bs2 : List (Str × Value)) (h : composeEntry bs key v = .ok bs2) :
    ∃ w, bs2 = setKey bs key w := by
  rw [composeEntry.eq_def] at h
  repeat' split at h
  all_goals
    first
      | exact ⟨_, by cases h; rfl⟩
      | (obtain ⟨r, _, hbs⟩ := except_map_ok _ _ _ h
         exact ⟨_, hbs⟩)

/-- A successful `removeEntry` only deletes or writes at its own key. -/
theorem removeEntry_shape (bs : List (Str × Value)) (key : Str) (v : Value)
    (bs2 : List (Str × Value)) (h : removeEntry bs key v = .ok bs2) :
    bs2 = delKey bs key ∨ ∃ w, bs2 = setKey bs key w := by
  rw [removeEntry.eq_def] at h
  repeat' split at h
  all_goals
    first
      | exact Or.inl (by cases h <;> rfl)
      | exact Or.inr ⟨_, by cases h; rfl⟩
      | (obtain ⟨r, _, hbs⟩ := except_map_ok _ _ _ h
         exact Or.inr ⟨_, hbs⟩)
      | cases h

/-- A successful merge step leaves every other key's binding unchanged. -/
theorem mergeEntry_lookup_ne (bs : List (Str × Value)) (k0 : Str) (v : Value)
    (bs2 : List (Str × Value)) (k2 : Str)
    (hstep : mergeEntry bs k0 v = .ok bs2) (hne : stripOp k0 ≠ k2) :
    lookupKey bs2 k2 = lookupKey bs k2 := by
  match k0 with
  | [] =>
    rw [mergeEntry] at hstep
    obtain ⟨w, rfl⟩ := composeEntry_shape _ _ _ _ hstep
    exact lookupKey_setKey_ne _ _ _ _ (by simpa [stripOp] using hne)
  | c :: rest =>
    rw [mergeEntry] at hstep
    by_cases h1 : c = '='
    · rw [if_pos h1] at hstep
      cases hstep
      refine lookupKey_setKey_ne _ _ _ _ ?_
      simpa [stripOp, h1] using hne
    · rw [if_neg h1] at hstep
      by_cases h2 : c = '~'
      · rw [if_pos h2] at hstep
        have hne2 : rest ≠ k2 := by simpa [stripOp, h1, h2] using hne
        rcases removeEntry_shape _ _ _ _ hstep with hdel | ⟨w, hset⟩
        · subst hdel; exact lookupKey_delKey_ne _ _ _ hne2
        · subst hset; exact lookupKey_setKey_ne _ _ _ _ hne2
      · rw [if_neg h2] at hstep
        by_cases h3 : c = '+'
        · rw [if_pos h3] at hstep
          obtain ⟨w, rfl⟩ := composeEntry_shape _ _ _ _ hstep
          exact lookupKey_setKey_ne _ _ _ _ (by simpa [stripOp, h1, h2, h3] using hne)
        · rw [if_neg h3] at hstep
          obtain ⟨w, rfl⟩ := composeEntry_shape _ _ _ _ hstep
          exact lookupKey_setKey_ne _ _ _ _ (by simpa [stripOp, h1, h2, h3] using hne)

/-- Base keys whose (stripped) name is not mentioned by any override
entry keep their binding across a successful merge. -/
theorem mergeEntries_preserves (om : List (Str × Value)) :
    ∀ (bm r : List (Str × Value)) (k2 : Str),
      mergeEntries bm om = .ok r →
      (∀ p ∈ om, stripOp p.1 ≠ k2) →
      lookupKey r k2 = lookupKey bm k2 := by
  induction om with
  | nil =>
    intro bm r k2 hm _
    rw [mergeEntries_nil] at hm
    cases hm
    rfl
  | cons hd rest ih =>
    intro bm r k2 hm hmen
    obtain ⟨k0, v0⟩ := hd
    rw [mergeEntries_cons] at hm
    cases hstep : mergeEntry bm k0 v0 with
    | error e => rw [hstep] at hm; cases hm
    | ok bs1 =>
      rw [hstep] at hm
      have h1 : lookupKey r k2 = lookupKey bs1 k2 :=
        ih bs1 r k2 hm (fun p hp => hmen p (List.mem_cons_of_mem _ hp))
      have h2 : lookupKey bs1 k2 = lookupKey bm k2 :=
        mergeEntry_lookup_ne _ _ _ _ _ hstep (hmen (k0, v0) (List.mem_cons_self _ _))
      rw [h1, h2]

/-! ## Claims about the composition engine -/

/-- **C1.**  Under the default compose operator (an un-prefixed mapping
key), when both the base and the override hold mappings at the same key,
`merge` merges them recursively (the result at that key is the recursive
merge of the two sub-mappings), preserving base keys not mentioned in the
override; concretely, merging `{m: {lr: 0.001, h: 512}}` with
`{m: {dropout: 0.1}}` yields `{m: {lr: 0.001, h: 512, dropout: 0.1}}`. -/
theorem merge_default_compose_recursive :
    (∀ (bs bm om : List (Str × Value)) (k : Str),
        isOpKey k = false →
        lookupKey bs k = some (Value.dict bm) →
        merge_configs (Value.dict bs) (Value.dict [(k, Value.dict om)]) =
          (mergeEntries bm om).map (fun r => Value.dict (setKey bs k (Value.dict r))))
    ∧ (∀ (bm om r : List (Str × Value)) (k2 : Str),
        mergeEntries bm om = .ok r →
        (∀ p ∈ om, stripOp p.1 ≠ k2) →
        lookupKey r k2 = lookupKey bm k2)
    ∧ merge_configs exBaseC1 exOverrideC1 = .ok exResultC1 := by
  refine ⟨?_, ?_, ?_⟩
  · intro bs bm om k hop hlk
    rw [merge_configs_single, mergeEntry_plain _ _ _ hop, composeEntry_dict _ _ _ _ hlk]
    cases hm : mergeEntries bm om <;> simp [hm, Except.map]
  · intro bm om r k2 hm hmen
    exact mergeEntries_preserves om bm r k2 hm hmen
  · have h2 : mergeEntries
        [("lr".data, Value.float "0.001".data), ("h".data, Value.int 512)]
        [("dropout".data, Value.float "0.1".data)] =
        .ok [("lr".data, Value.float "0.001".data), ("h".data, Value.int 512),
          ("dropout".data, Value.float "0.1".data)] := by
      rw [mergeEntries_cons, mergeEntry_plain _ _ _ (by decide), composeEntry.eq_def]
      show mergeEntries (setKey
        [("lr".data, Value.float "0.001".data), ("h".data, Value.int 512)]
        "dropout".data (Value.float "0.1".data)) [] = _
      rw [mergeEntries_nil]
      rfl
    have h1 : merge_configs exBaseC1 exOverrideC1 =
        (mergeEntry [("m".data, Value.dict [("lr".data, Value.float "0.001".data),
            ("h".data, Value.int 512)])] "m".data
          (Value.dict [("dropout".data, Value.float "0.1".data)])).map Value.dict :=
      merge_configs_single _ _ _
    rw [h1, mergeEntry_plain _ _ _ (by decide),
      composeEntry_dict
        [("m".data, Value.dict [("lr".data, Value.float "0.001".data),
          ("h".data, Value.int 512)])]
        "m".data
        [("lr".data, Value.float "0.001".data), ("h".data, Value.int 512)]
        [("dropout".data, Value.float "0.1".data)]
        (by rfl), h2]
    rfl

/-- Witness for C1 at the concrete example: the un-prefixed key `"m"`,
held as a mapping on both sides, merges recursively and `"lr"` (absent
from the override) keeps its base binding. -/
theorem merge_default_compose_recursive_witness :
    merge_configs
        (Value.dict [("m".data,
          Value.dict [("lr".data, Value.float "0.001".data), ("h".data, Value.int 512)])])
        (Value.dict [("m".data, Value.dict [("dropout".data, Value.float "0.1".data)])]) =
      (mergeEntries [("lr".data, Value.float "0.001".data), ("h".data, Value.int 512)]
          [("dropout".data, Value.float "0.1".data)]).map
        (fun r => Value.dict (setKey [("m".data,
          Value.dict [("lr".data, Value.float "0.001".data), ("h".data, Value.int 512)])]
          "m".data (Value.dict r))) ∧
    lookupKey [("lr".data, Value.float "0.001".data), ("h".data, Value.int 512),
        ("dropout".data, Value.float "0.1".data)] "lr".data =
      lookupKey [("lr".data, Value.float "0.001".data), ("h".data, Value.int 512)] "lr".data := by
  constructor
  · exact merge_default_compose_recursive.1 _ _ _ _ (by decide)
      (by simp [lookupKey])
  · refine merge_default_compose_recursive.2.1
      [("lr".data, Value.float "0.001".data), ("h".data, Value.int 512)]
      [("dropout".data, Value.float "0.1".data)]
      [("lr".data, Value.float "0.001".data), ("h".data, Value.int 512),
        ("dropout".data, Value.float "0.1".data)]
      "lr".data ?_ ?_
    · rw [mergeEntries_cons, mergeEntry_plain _ _ _ (by decide), composeEntry.eq_def]
      show mergeEntries (setKey
        [("lr".data, Value.float "0.001".data), ("h".data, Value.int 512)]
        "dropout".data (Value.float "0.1".data)) [] = _
      rw [mergeEntries_nil]
      rfl
    · intro p hp
      simp at hp
      subst hp
      decide

/-- **C2.**  Deleting a missing key with `~k: null` is not an error and
returns the base unchanged, and applying the same delete directive twice
yields the same result as applying it once. -/
theorem merge_delete_idempotent :
    (∀ (bs : List (Str × Value)) (k : Str),
        lookupKey bs k = none →
        merge_configs (Value.dict bs) (Value.dict [('~' :: k, Value.null)]) =
          .ok (Value.dict bs))
    ∧ (∀ (bs : List (Str × Value)) (k : Str),
        NodupKeys bs →
        (merge_configs (Value.dict bs) (Value.dict [('~' :: k, Value.null)])).bind
            (fun r => merge_configs r (Value.dict [('~' :: k, Value.null)])) =
          merge_configs (Value.dict bs) (Value.dict [('~' :: k, Value.null)])) := by
  have hdel : ∀ (bs : List (Str × Value)) (k : Str),
      merge_configs (Value.dict bs) (Value.dict [('~' :: k, Value.null)]) =
        .ok (Value.dict (delKey bs k)) := by
    intro bs k
    rw [merge_configs_single, mergeEntry_remove, removeEntry]
    rfl
  constructor
  · intro bs k hnone
    rw [hdel, delKey_of_lookup_none _ _ hnone]
  · intro bs k hnodup
    have h2 : delKey (delKey bs k) k = delKey bs k :=
      delKey_of_lookup_none _ _ (lookupKey_delKey_self _ _ hnodup)
    rw [hdel bs k]
    simp only [Except.bind]
    rw [hdel (delKey bs k) k, h2]

/-- Witness for C2: deleting the missing key `"b"` from `{a: 1}` returns
the base unchanged, and the delete is idempotent on `{a: 1, b: 2}`. -/
theorem merge_delete_idempotent_witness :
    merge_configs (Value.dict [("a".data, Value.int 1)])
        (Value.dict [('~' :: "b".data, Value.null)]) =
      .ok (Value.dict [("a".data, Value.int 1)]) ∧
    (merge_configs (Value.dict [("a".data, Value.int 1), ("b".data, Value.int 2)])
        (Value.dict [('~' :: "b".data, Value.null)])).bind
      (fun r => merge_configs r (Value.dict [('~' :: "b".data, Value.null)])) =
      merge_configs (Value.dict [("a".data, Value.int 1), ("b".data, Value.int 2)])
        (Value.dict [('~' :: "b".data, Value.null)]) := by
  constructor
  · exact merge_delete_idempotent.1 _ _ (by simp [lookupKey])
  · exact merge_delete_idempotent.2 _ _ (by decide)

/-- **C3.**  For a list-valued base key, the remove directive
`~k: [i1, i2, …]` deletes exactly the listed indices in one batch,
relative to the pre-operation list: negatives count from the end,
duplicate indices collapse, remaining elements keep their order, and an
out-of-range or non-integer index is fatal; concretely
`{p: ["a","b","c","d","e"]}` with `{~p: [0, 2, 4]}` yields
`{p: ["b","d"]}`. -/
theorem merge_remove_list_indices :
    (∀ (bs : List (Str × Value)) (k : Str) (xs items : List Value) (ns : List Nat),
        items ≠ [] →
        lookupKey bs k = some (Value.list xs) →
        collectIndices xs.length items = .ok ns →
        merge_configs (Value.dict bs) (Value.dict [('~' :: k, Value.list items)]) =
          .ok (Value.dict (setKey bs k (Value.list (removeIdxs xs ns)))))
    ∧ (∀ (bs : List (Str × Value)) (k : Str) (xs items : List Value) (e : MergeErr),
        items ≠ [] →
        lookupKey bs k = some (Value.list xs) →
        collectIndices xs.length items = .error e →
        merge_configs (Value.dict bs) (Value.dict [('~' :: k, Value.list items)]) =
          .error e)
    ∧ (∀ (xs : List Value) (ns : List Nat), removeIdxs xs ns.dedup = removeIdxs xs ns)
    ∧ merge_configs
        (Value.dict [("p".data, Value.list [Value.str "a".data, Value.str "b".data,
          Value.str "c".data, Value.str "d".data, Value.str "e".data])])
        (Value.dict [('~' :: "p".data,
          Value.list [Value.int 0, Value.int 2, Value.int 4])]) =
      .ok (Value.dict [("p".data,
        Value.list [Value.str "b".data, Value.str "d".data])]) := by
  have hempty : ∀ (items : List Value), items ≠ [] → items.isEmpty = false := by
    intro items h
    cases items with
    | nil => exact absurd rfl h
    | cons a t => rfl
  refine ⟨?_, ?_, ?_, ?_⟩
  · intro bs k xs items ns hne hlk hcoll
    rw [merge_configs_single, mergeEntry_remove, removeEntry.eq_def]
    simp [hempty items hne, hlk, hcoll, Except.map]
  · intro bs k xs items e hne hlk hcoll
    rw [merge_configs_single, mergeEntry_remove, removeEntry.eq_def]
    simp [hempty items hne, hlk, hcoll, Except.map]
  · intro xs ns
    simp [removeIdxs, List.mem_dedup]
  · simp +decide [merge_configs, mergeEntries, mergeEntry, removeEntry, collectIndices,
      removeIdxs, lookupKey, setKey, Except.map, Bind.bind, Except.bind, List.enum]

/-- Witness for C3: on base `{p: [a,b,c,d,e]}`, the batch `[0, 2, 4]`
normalizes in bounds and the merge deletes exactly those positions, and
the batch `[7]` is out of range and fatal. -/
theorem merge_remove_list_indices_witness :
    merge_configs
        (Value.dict [("p".data, Value.list [Value.str "a".data, Value.str "b".data,
          Value.str "c".data, Value.str "d".data, Value.str "e".data])])
        (Value.dict [('~' :: "p".data,
          Value.list [Value.int 0, Value.int 2, Value.int 4])]) =
      .ok (Value.dict (setKey [("p".data, Value.list [Value.str "a".data, Value.str "b".data,
          Value.str "c".data, Value.str "d".data, Value.str "e".data])] "p".data
        (Value.list (removeIdxs [Value.str "a".data, Value.str "b".data,
          Value.str "c".data, Value.str "d".data, Value.str "e".data] [0, 2, 4])))) ∧
    merge_configs
        (Value.dict [("p".data, Value.list [Value.str "a".data, Value.str "b".data,
          Value.str "c".data, Value.str "d".data, Value.str "e".data])])
        (Value.dict [('~' :: "p".data, Value.list [Value.int 7])]) =
      .error (.indexOutOfRange 7) := by
  constructor
  · refine merge_remove_list_indices.1 _ _ _ _ _ ?_ ?_ ?_
    · simp
    · simp [lookupKey]
    · simp +decide [collectIndices, Except.map]
  · refine merge_remove_list_indices.2.1 _ _
      [Value.str "a".data, Value.str "b".data, Value.str "c".data,
        Value.str "d".data, Value.str "e".data] _ _ ?_ ?_ ?_
    · simp
    · simp [lookupKey]
    · simp +decide [collectIndices]

/-- **C4.**  After `merge(t, {"=k": v})` the result holds exactly `v` at
`k` (the base value is discarded entirely) and every other key keeps its
base binding. -/
theorem merge_replace_semantics :
    ∀ (bs : List (Str × Value)) (k : Str) (v : Value),
      merge_configs (Value.dict bs) (Value.dict [('=' :: k, v)]) =
          .ok (Value.dict (setKey bs k v))
        ∧ lookupKey (setKey bs k v) k = some v
        ∧ ∀ k2, k2 ≠ k → lookupKey (setKey bs k v) k2 = lookupKey bs k2 := by
  intro bs k v
  refine ⟨?_, lookupKey_setKey_self bs k v, ?_⟩
  · rw [merge_configs_single, mergeEntry_replace]
    rfl
  · intro k2 hne
    exact lookupKey_setKey_ne bs k k2 v (fun hh => hne hh.symm)

/-- Witness for C4: replacing `b` of `{a: 1, b: {x: 2}}` by `3`
discards the old mapping entirely and leaves `a` intact. -/
theorem merge_replace_semantics_witness :
    merge_configs (Value.dict [("a".data, Value.int 1),
        ("b".data, Value.dict [("x".data, Value.int 2)])])
        (Value.dict [('=' :: "b".data, Value.int 3)]) =
      .ok (Value.dict (setKey [("a".data, Value.int 1),
        ("b".data, Value.dict [("x".data, Value.int 2)])] "b".data (Value.int 3))) ∧
    lookupKey (setKey [("a".data, Value.int 1),
        ("b".data, Value.dict [("x".data, Value.int 2)])] "b".data (Value.int 3))
        "a".data =
      lookupKey [("a".data, Value.int 1),
        ("b".data, Value.dict [("x".data, Value.int 2)])] "a".data := by
  have h := merge_replace_semantics [("a".data, Value.int 1),
    ("b".data, Value.dict [("x".data, Value.int 2)])] "b".data (Value.int 3)
  exact ⟨h.1, h.2.2 "a".data (by decide)⟩

/-- **C5.**  During merge a `+`-prefixed key is an alias for default
compose: for an operator-free key `k`, merging the override `{"+k": v}`
produces the same result as merging the override `{"k": v}`. -/
theorem merge_plus_alias_compose :
    ∀ (bs : List (Str × Value)) (k : Str) (v : Value),
      isOpKey k = false →
      merge_configs (Value.dict bs) (Value.dict [('+' :: k, v)]) =
        merge_configs (Value.dict bs) (Value.dict [(k, v)]) := by
  intro bs k v hop
  rw [merge_configs_single, merge_configs_single, mergeEntry_plus,
    mergeEntry_plain _ _ _ hop]

/-- Witness for C5: `{"+m": {x: 1}}` and `{"m": {x: 1}}` merge equally
into `{m: {}}`. -/
theorem merge_plus_alias_compose_witness :
    merge_configs (Value.dict [("m".data, Value.dict [])])
        (Value.dict [('+' :: "m".data, Value.dict [("x".data, Value.int 1)])]) =
      merge_configs (Value.dict [("m".data, Value.dict [])])
        (Value.dict [("m".data, Value.dict [("x".data, Value.int 1)])]) :=
  merge_plus_alias_compose _ _ _ (by decide)

end Merger

/-! ## Claims about relative-id resolution -/

theorem mem_insertDesc (a x : Str) (l : List Str) :
    a ∈ insertDesc x l ↔ a = x ∨ a ∈ l := by
  induction l with
  | nil => simp [insertDesc]
  | cons y ys ih =>
    rw [insertDesc]
    by_cases h : strLtB y x
    · simp [h]
    · simp only [if_neg h, List.mem_cons, ih]
      tauto

theorem mem_sortDesc (a : Str) (l : List Str) : a ∈ sortDesc l ↔ a ∈ l := by
  induction l with
  | nil => simp [sortDesc]
  | cons x xs ih => rw [sortDesc, mem_insertDesc, ih, List.mem_cons]

/-- The rewriting loop raises exactly when some listed prefix counts more
`::` pairs than the current id has components. -/
theorem rriLoop_error_iff (cid : List Str) (ps : List Str) :
    ∀ v, isErr (rriLoop cid ps v) = true ↔
      ∃ p ∈ ps, countSep (p.drop 1) > cid.length := by
  induction ps with
  | nil => intro v; simp [rriLoop, isErr]
  | cons p ps ih =>
    intro v
    rw [rriLoop]
    simp only [List.drop_one] at ih ⊢
    by_cases h : countSep p.tail > cid.length
    · rw [if_pos h]
      simp only [isErr, true_iff]
      exact ⟨p, List.mem_cons_self _ _, h⟩
    · rw [if_neg h]
      rw [ih]
      constructor
      · rintro ⟨p2, hp2, hc⟩
        exact ⟨p2, List.mem_cons_of_mem _ hp2, hc⟩
      · rintro ⟨p2, hp2, hc⟩
        rcases List.mem_cons.mp hp2 with rfl | hp2
        · exact absurd hc h
        · exact ⟨p2, hp2, hc⟩

/-- `resolve_relative_ids(i, v)` raises exactly when some relative prefix
of `v` counts more `::` pairs than `i.split("::")` has components. -/
theorem resolve_relative_ids_error_iff (i v : Str) :
    isErr (resolve_relative_ids i v) = true ↔
      ∃ p ∈ findRelPrefixes v, countSep (p.drop 1) > (splitSep i).length := by
  rw [resolve_relative_ids, rriLoop_error_iff]
  constructor
  · rintro ⟨p, hp, hc⟩
    rw [mem_sortDesc, List.mem_dedup] at hp
    exact ⟨p, hp, hc⟩
  · rintro ⟨p, hp, hc⟩
    exact ⟨p, by rw [mem_sortDesc, List.mem_dedup]; exact hp, hc⟩

/-- **C6, counterexample.**  At id `"a"` (one segment, so the claim's
`depth` is 1) the value `"@::::x"` has a single relative prefix with two
`::`; the claim predicts no error (2 is not greater than depth+1 = 2),
but the code raises. -/
theorem resolve_relative_bound_counterexample :
    isErr (resolve_relative_ids "a".data "@::::x".data) = true ∧
    ¬ ∃ p ∈ findRelPrefixes "@::::x".data,
        countSep (p.drop 1) > depthSpec "a".data + 1 := by
  constructor
  · decide
  · decide

/-- **C6, amended.**  `resolve_relative_ids(i, v)` raises iff some
relative prefix in `v` uses more `::` than `i.split("::")` has components
— that is, more than `depth(i)` for a non-root id and more than 1 for the
root (not `depth(i)+1`); when the count equals that bound the prefix
resolves to the root (empty absolute prefix). -/
theorem resolve_relative_bound_amended :
    (∀ i v : Str, isErr (resolve_relative_ids i v) = true ↔
        ∃ p ∈ findRelPrefixes v, countSep (p.drop 1) > (splitSep i).length)
    ∧ (∀ i : Str, i ≠ [] → (splitSep i).length = depthSpec i)
    ∧ (splitSep ([] : Str)).length = 1
    ∧ resolve_relative_ids "a".data "@::x".data = .ok "@x".data
    ∧ resolve_relative_ids ([] : Str) "@::x".data = .ok "@x".data := by
  refine ⟨resolve_relative_ids_error_iff, ?_, by decide, by rfl, by rfl⟩
  intro i hi
  rw [depthSpec, if_neg hi]

/-- Witness for the amended C6: at the id `"a"` the error condition and
the prefix bound agree on `"@::::x"` (both report the out-of-range
prefix). -/
theorem resolve_relative_bound_amended_witness :
    (isErr (resolve_relative_ids "a".data "@::::x".data) = true ↔
      ∃ p ∈ findRelPrefixes "@::::x".data,
        countSep (p.drop 1) > (splitSep "a".data).length) ∧
    (splitSep "ab".data).length = depthSpec "ab".data := by
  exact ⟨resolve_relative_bound_amended.1 "a".data "@::::x".data,
    resolve_relative_bound_amended.2.1 "ab".data (by decide)⟩

/-! ## Claims about raw lookups and the loader -/

/-- **C7, counterexample.**  `Config.get` with an absent id and no
default does not raise: the underlying `_get_by_id` raises `KeyError`,
but `get` catches it and returns the default parameter's value `None`
(null) — not a `KeyNotFound` error as the claim states. -/
theorem config_get_counterexample :
    Config.get (Value.dict []) "missing".data = .ok Value.null ∧
    Config._get_by_id (Value.dict []) "missing".data = .error Config.PyErr.keyError :=
  ⟨rfl, rfl⟩

/-- **C7, amended.**  `Config.get(id, default)` performs a raw
(unresolved) lookup: for a present id it returns the stored value
untouched; for an absent id it returns the supplied default — `None`
(null) when none is supplied — and never raises. -/
theorem config_get_amended :
    (∀ (data : Value) (id : Str) (d v : Value),
        Config._get_by_id data id = .ok v → Config.get data id d = .ok v)
    ∧ (∀ (data : Value) (id : Str) (d : Value) (e : Config.PyErr),
        Config._get_by_id data id = .error e → Config.get data id d = .ok d)
    ∧ (∀ (data : Value) (id : Str) (d : Value), ∃ v, Config.get data id d = .ok v) := by
  refine ⟨?_, ?_, ?_⟩
  · intro data id d v h
    rw [Config.get, h]
  · intro data id d e h
    rw [Config.get, h]
  · intro data id d
    rw [Config.get]
    cases Config._get_by_id data id with
    | ok v => exact ⟨v, rfl⟩
    | error e => exact ⟨d, rfl⟩

/-- Witness for the amended C7: a present id returns the stored raw
value (an unresolved `@` reference string), an absent id returns the
supplied default. -/
theorem config_get_amended_witness :
    Config.get (Value.dict [("a".data, Value.str "@a".data)]) "a".data Value.null =
      .ok (Value.str "@a".data) ∧
    Config.get (Value.dict []) "b".data (Value.int 7) = .ok (Value.int 7) := by
  constructor
  · exact config_get_amended.1 _ _ _ _ (by rfl)
  · exact config_get_amended.2.1 _ _ _ Config.PyErr.keyError (by rfl)

/-- **C10.**  `Loader.load_file` on an empty (falsy) path returns an
empty mapping and a fresh empty `MetadataRegistry` — for every path
normalizer and filesystem oracle, so no extension validation and no file
I/O takes place — while a non-empty path failing the `.yaml`/`.yml`
pattern is rejected. -/
theorem load_file_empty_path :
    (∀ (norm reslv : Str → Str) (fs : Str → Option (Value × Loader.Registry)),
        Loader.load_file norm reslv fs [] =
          .ok (Value.dict [], ([] : Loader.Registry)))
    ∧ (∀ (norm reslv : Str → Str) (fs : Str → Option (Value × Loader.Registry)) (p : Str),
        p ≠ [] → Loader.pathMatches (norm p) = false →
        Loader.load_file norm reslv fs p = .error Loader.LoadErr.badExtension) := by
  constructor
  · intro norm reslv fs
    rfl
  · intro norm reslv fs p hp hm
    simp [Loader.load_file, hp, hm]

/-- Witness for C10: the empty path loads an empty tree with a fresh
empty registry even with an unreadable filesystem, and the non-yaml path
`"config.txt"` is rejected. -/
theorem load_file_empty_path_witness :
    Loader.load_file id id (fun _ => none) [] =
      .ok (Value.dict [], ([] : Loader.Registry)) ∧
    Loader.load_file id id (fun _ => none) "config.txt".data =
      .error Loader.LoadErr.badExtension := by
  constructor
  · exact load_file_empty_path.1 id id _
  · exact load_file_empty_path.2 id id _ "config.txt".data (by decide) (by rfl)

/-! ## The macro-independence claim -/

/-- **C8.**  Macro expansion installs a deep copy of the referenced
sub-tree: resolving `{t: {a: 1}, c: "%t"}` replaces the macro at `c` by
a copy under a fresh heap label (object 2), disjoint from the labels of
the source sub-tree at `t` (object 1); consequently mutating the value
at `t::a` (an in-place write on object 1) leaves `c::a` equal to `1`,
and mutating the expanded copy (object 2) leaves `t::a` equal to `1`. -/
theorem macro_expansion_independent :
    _do_resolve_macros (fun _ => none) 32 exConfigC8 [] [] 2 =
        .ok (exResolvedC8, exResolvedC8, 3)
    ∧ getPathL exResolvedC8 ["t".data] = .ok (LValue.dict 1 [("a".data, LValue.int 1)])
    ∧ getPathL exResolvedC8 ["c".data] = .ok (LValue.dict 2 [("a".data, LValue.int 1)])
    ∧ (labelsOf (LValue.dict 1 [("a".data, LValue.int 1)])).inter
        (labelsOf (LValue.dict 2 [("a".data, LValue.int 1)])) = []
    ∧ eraseAt exResolvedC8 ["c".data, "a".data] = some (Value.int 1)
    ∧ (∀ v : LValue,
        eraseAt (mutateByLabel 1 "a".data v exResolvedC8) ["c".data, "a".data] =
          some (Value.int 1))
    ∧ (∀ v : LValue,
        eraseAt (mutateByLabel 2 "a".data v exResolvedC8) ["t".data, "a".data] =
          some (Value.int 1)) :=
  ⟨rfl, rfl, rfl, rfl, rfl, fun _ => rfl, fun _ => rfl⟩

/-- Witness for C8 at a concrete mutation: overwriting `t::a` with `99`
through object 1 leaves the expanded copy's `c::a` at `1`, and
vice versa. -/
theorem macro_expansion_independent_witness :
    eraseAt (mutateByLabel 1 "a".data (LValue.int 99) exResolvedC8)
        ["c".data, "a".data] = some (Value.int 1) ∧
    eraseAt (mutateByLabel 2 "a".data (LValue.int 99) exResolvedC8)
        ["t".data, "a".data] = some (Value.int 1) :=
  ⟨macro_expansion_independent.2.2.2.2.2.1 (LValue.int 99),
   macro_expansion_independent.2.2.2.2.2.2 (LValue.int 99)⟩

/-! ## Labelled-tree lemmas for the legacy merge -/

theorem eraseList_append (a b : List LValue) :
    eraseList (a ++ b) = eraseList a ++ eraseList b := by
  induction a with
  | nil => rfl
  | cons v rest ih =>
    show erase v :: eraseList (rest ++ b) = erase v :: (eraseList rest ++ eraseList b)
    rw [ih]

theorem lookupKey_eraseEntries (es : List (Str × LValue)) (k : Str) :
    lookupKey (eraseEntries es) k = (lookupKey es k).map erase := by
  induction es with
  | nil => rfl
  | cons hd rest ih =>
    obtain ⟨k2, v⟩ := hd
    show (if k2 = k then some (erase v) else lookupKey (eraseEntries rest) k) = _
    by_cases h : k2 = k
    · simp [h, lookupKey]
    · simp [h, lookupKey, ih]

theorem eraseEntries_setKey (es : List (Str × LValue)) (k : Str) (v : LValue) :
    eraseEntries (setKey es k v) = setKey (eraseEntries es) k (erase v) := by
  induction es with
  | nil => rfl
  | cons hd rest ih =>
    obtain ⟨k2, w⟩ := hd
    by_cases h : k2 = k
    · show eraseEntries (if k2 = k then (k2, v) :: rest else (k2, w) :: setKey rest k v) = _
      rw [if_pos h]
      show (k2, erase v) :: eraseEntries rest = _
      show _ = (if k2 = k then (k2, erase v) :: eraseEntries rest
        else (k2, erase w) :: setKey (eraseEntries rest) k (erase v))
      rw [if_pos h]
    · show eraseEntries (if k2 = k then (k2, v) :: rest else (k2, w) :: setKey rest k v) = _
      rw [if_neg h]
      show (k2, erase w) :: eraseEntries (setKey rest k v) = _
      rw [ih]
      show _ = (if k2 = k then (k2, erase v) :: eraseEntries rest
        else (k2, erase w) :: setKey (eraseEntries rest) k (erase v))
      rw [if_neg h]

theorem eraseEntries_delKey (es : List (Str × LValue)) (k : Str) :
    eraseEntries (delKey es k) = delKey (eraseEntries es) k := by
  induction es with
  | nil => rfl
  | cons hd rest ih =>
    obtain ⟨k2, w⟩ := hd
    by_cases h : k2 = k
    · show eraseEntries (if k2 = k then rest else (k2, w) :: delKey rest k) = _
      rw [if_pos h]
      show _ = (if k2 = k then eraseEntries rest else (k2, erase w) :: delKey (eraseEntries rest) k)
      rw [if_pos h]
    · show eraseEntries (if k2 = k then rest else (k2, w) :: delKey rest k) = _
      rw [if_neg h]
      show (k2, erase w) :: eraseEntries (delKey rest k) = _
      rw [ih]
      show _ = (if k2 = k then eraseEntries rest else (k2, erase w) :: delKey (eraseEntries rest) k)
      rw [if_neg h]

mutual

theorem erase_deepcopyL : ∀ (v : LValue) (f : Nat), erase (deepcopyL v f).1 = erase v
  | LValue.null, _ => rfl
  | LValue.bool _, _ => rfl
  | LValue.int _, _ => rfl
  | LValue.float _, _ => rfl
  | LValue.str _, _ => rfl
  | LValue.list _ xs, f => congrArg Value.list (eraseList_dcList xs (f + 1))
  | LValue.dict _ es, f => congrArg Value.dict (eraseEntries_dcEntries es (f + 1))
termination_by v _ => sizeOf v

theorem eraseList_dcList : ∀ (xs : List LValue) (f : Nat),
    eraseList (dcList xs f).1 = eraseList xs
  | [], _ => rfl
  | v :: rest, f => by
    show erase (deepcopyL v f).1 :: eraseList (dcList rest (deepcopyL v f).2).1 =
      erase v :: eraseList rest
    rw [erase_deepcopyL v f, eraseList_dcList rest (deepcopyL v f).2]
termination_by xs _ => sizeOf xs

theorem eraseEntries_dcEntries : ∀ (es : List (Str × LValue)) (f : Nat),
    eraseEntries (dcEntries es f).1 = eraseEntries es
  | [], _ => rfl
  | (k, v) :: rest, f => by
    show (k, erase (deepcopyL v f).1) :: eraseEntries (dcEntries rest (deepcopyL v f).2).1 =
      (k, erase v) :: eraseEntries rest
    rw [erase_deepcopyL v f, eraseEntries_dcEntries rest (deepcopyL v f).2]
termination_by es _ => sizeOf es

end

mutual

theorem deepcopyL_mono : ∀ (v : LValue) (f : Nat), f ≤ (deepcopyL v f).2
  | LValue.null, _ => le_refl _
  | LValue.bool _, _ => le_refl _
  | LValue.int _, _ => le_refl _
  | LValue.float _, _ => le_refl _
  | LValue.str _, _ => le_refl _
  | LValue.list _ xs, f => by
    show f ≤ (dcList xs (f + 1)).2
    exact le_trans (Nat.le_succ f) (dcList_mono xs (f + 1))
  | LValue.dict _ es, f => by
    show f ≤ (dcEntries es (f + 1)).2
    exact le_trans (Nat.le_succ f) (dcEntries_mono es (f + 1))
termination_by v _ => sizeOf v

theorem dcList_mono : ∀ (xs : List LValue) (f : Nat), f ≤ (dcList xs f).2
  | [], _ => le_refl _
  | v :: rest, f => by
    show f ≤ (dcList rest (deepcopyL v f).2).2
    exact le_trans (deepcopyL_mono v f) (dcList_mono rest _)
termination_by xs _ => sizeOf xs

theorem dcEntries_mono : ∀ (es : List (Str × LValue)) (f : Nat), f ≤ (dcEntries es f).2
  | [], _ => le_refl _
  | (k, v) :: rest, f => by
    show f ≤ (dcEntries rest (deepcopyL v f).2).2
    exact le_trans (deepcopyL_mono v f) (dcEntries_mono rest _)
termination_by es _ => sizeOf es

end

mutual

theorem hasDirectiveL_erase : ∀ v : LValue,
    Legacy.hasDirectiveL v = Legacy._has_merge_directive (erase v)
  | LValue.null => rfl
  | LValue.bool _ => rfl
  | LValue.int _ => rfl
  | LValue.float _ => rfl
  | LValue.str _ => rfl
  | LValue.list _ _ => rfl
  | LValue.dict _ es => hasDirEntriesL_erase es
termination_by v => sizeOf v

theorem hasDirEntriesL_erase : ∀ es : List (Str × LValue),
    Legacy.hasDirEntriesL es = Legacy.hasDirEntries (eraseEntries es)
  | [] => rfl
  | (k, v) :: rest => by
    show ((match k with | '+' :: _ => true | _ => false)
        || Legacy.hasDirectiveL v || Legacy.hasDirEntriesL rest) =
      ((match k with | '+' :: _ => true | _ => false)
        || Legacy._has_merge_directive (erase v) || Legacy.hasDirEntries (eraseEntries rest))
    rw [hasDirectiveL_erase v, hasDirEntriesL_erase rest]
termination_by es => sizeOf es

end

namespace Legacy

theorem entriesGo_nil (res : List (Str × Value)) (ctx : Bool) :
    entriesGo res [] ctx = .ok res := by
  rw [entriesGo.eq_def]

theorem entriesGo_cons (res : List (Str × Value)) (k : Str) (v : Value)
    (rest : List (Str × Value)) (ctx : Bool) :
    entriesGo res ((k, v) :: rest) ctx =
      (entryGo res k v ctx).bind (fun r2 => entriesGo r2 rest ctx) := by
  rw [entriesGo.eq_def]
  rfl

mutual

/-- Erasing labels commutes with the labelled legacy merge of two dicts:
the value result is the pure legacy merge of the erased entries,
whatever the counter and log. -/
theorem dictsGoL_erase : ∀ (os : List (Str × LValue)) (lb : Nat)
    (bm : List (Str × LValue)) (ctx : Bool) (st : MSt),
    eraseExc (dictsGoL (LValue.dict lb bm) os ctx st).1 =
      (entriesGo (eraseEntries bm) (eraseEntries os) ctx).map Value.dict
  | os, lb, bm, ctx, st => by
    have hstep : dictsGoL (LValue.dict lb bm) os ctx st =
        entriesGoL (dcEntries bm (st.1 + 1)).1 st.1 os ctx
          ((dcEntries bm (st.1 + 1)).2, st.2) := by
      rw [dictsGoL]
      rfl
    rw [hstep, entriesGoL_erase os (dcEntries bm (st.1 + 1)).1 st.1 ctx
      ((dcEntries bm (st.1 + 1)).2, st.2), eraseEntries_dcEntries]
termination_by os _ _ _ _ => (sizeOf os, 3)

/-- Erase-commutation for the entry loop. -/
theorem entriesGoL_erase : ∀ (os : List (Str × LValue)) (es : List (Str × LValue))
    (lr : Nat) (ctx : Bool) (st : MSt),
    eraseExc (entriesGoL es lr os ctx st).1 =
      (entriesGo (eraseEntries es) (eraseEntries os) ctx).map Value.dict
  | [], es, lr, ctx, st => by
    have h1 : entriesGoL es lr [] ctx st = (Except.ok (LValue.dict lr es), st) := by
      rw [entriesGoL]
    rw [h1, show eraseEntries ([] : List (Str × LValue)) = [] from rfl, entriesGo_nil]
    rfl
  | (k, v) :: rest, es, lr, ctx, st => by
    rw [entriesGoL]
    have h4 := entryGoL_erase v es lr k ctx st
    rcases hstep : entryGoL es lr k v ctx st with ⟨r, st2⟩
    rw [hstep] at h4
    rw [show eraseEntries ((k, v) :: rest) = (k, erase v) :: eraseEntries rest from rfl,
      entriesGo_cons, ← h4]
    cases r with
    | ok res2 =>
      show eraseExc (entriesGoL res2 lr rest ctx st2).1 =
        ((Except.ok (eraseEntries res2)).bind
          (fun r2 => entriesGo r2 (eraseEntries rest) ctx)).map Value.dict
      rw [entriesGoL_erase rest res2 lr ctx st2]
      rfl
    | error e => rfl
termination_by os _ _ _ _ => (sizeOf os, 2)

/-- Erase-commutation for one entry. -/
theorem entryGoL_erase : ∀ (v : LValue) (es : List (Str × LValue)) (lr : Nat)
    (k : Str) (ctx : Bool) (st : MSt),
    eraseExcEntries (entryGoL es lr k v ctx st).1 =
      entryGo (eraseEntries es) k (erase v) ctx
  | v, es, lr, [], ctx, st => by
    have h1 : entryGoL es lr [] v ctx st = plainGoL es lr [] v ctx st := by
      simp only [entryGoL.eq_def]
    have h2 : entryGo (eraseEntries es) [] (erase v) ctx
        = plainGo (eraseEntries es) [] (erase v) ctx := by
      simp only [entryGo.eq_def]
    rw [h1, h2]
    exact plainGoL_erase v es lr [] ctx st
  | v, es, lr, c :: actual, ctx, st => by
    have h1 : entryGoL es lr (c :: actual) v ctx st =
        (if c = '~' then
          match lookupKey es actual with
          | none => (Except.error (LegacyErr.deleteMissing actual), st)
          | some _ => (Except.ok (delKey es actual), (st.1, lr :: st.2))
        else if c = '+' then plusGoL es lr actual v st
        else plainGoL es lr (c :: actual) v ctx st) := by
      simp only [entryGoL.eq_def]
    have h2 : entryGo (eraseEntries es) (c :: actual) (erase v) ctx =
        (if c = '~' then
          match lookupKey (eraseEntries es) actual with
          | none => Except.error (LegacyErr.deleteMissing actual)
          | some _ => Except.ok (delKey (eraseEntries es) actual)
        else if c = '+' then plusGo (eraseEntries es) actual (erase v)
        else plainGo (eraseEntries es) (c :: actual) (erase v) ctx) := by
      simp only [entryGo.eq_def]
    rw [h1, h2]
    by_cases h3 : c = '~'
    · rw [if_pos h3, if_pos h3, lookupKey_eraseEntries]
      cases hl : lookupKey es actual with
      | none => rfl
      | some w =>
        show Except.ok (eraseEntries (delKey es actual)) =
          Except.ok (delKey (eraseEntries es) actual)
        rw [eraseEntries_delKey]
    · rw [if_neg h3, if_neg h3]
      by_cases h4 : c = '+'
      · rw [if_pos h4, if_pos h4]
        exact plusGoL_erase v es lr actual st
      · rw [if_neg h4, if_neg h4]
        exact plainGoL_erase v es lr (c :: actual) ctx st
termination_by v _ _ _ _ _ => (sizeOf v, 1)

/-- Erase-commutation for the `+key` branch. -/
theorem plusGoL_erase : ∀ (v : LValue) (es : List (Str × LValue)) (lr : Nat)
    (actual : Str) (st : MSt),
    eraseExcEntries (plusGoL es lr actual v st).1 =
      plusGo (eraseEntries es) actual (erase v)
  | v, es, lr, actual, st => by
    rw [plusGoL.eq_def, plusGo.eq_def, lookupKey_eraseEntries]
    cases hl : lookupKey es actual with
    | none => rfl
    | some b =>
      cases b with
      | dict lb bm =>
        cases v with
        | dict lv om =>
          show eraseExcEntries ((match dictsGoL (LValue.dict lb bm) om true st with
              | (Except.ok r, st2) => (Except.ok (setKey es actual r), (st2.1, lr :: st2.2))
              | (Except.error e, st2) => (Except.error e, st2))).1 =
            (entriesGo (eraseEntries bm) (eraseEntries om) true).map
              (fun r => setKey (eraseEntries es) actual (Value.dict r))
          have ha := dictsGoL_erase om lb bm true st
          rcases hgo : dictsGoL (LValue.dict lb bm) om true st with ⟨r, st2⟩
          rw [hgo] at ha
          cases r with
          | ok rv =>
            cases hpure : entriesGo (eraseEntries bm) (eraseEntries om) true with
            | ok rp =>
              rw [hpure] at ha
              have hrv : erase rv = Value.dict rp := by
                injection (show Except.ok (ε := LegacyErr) (erase rv) =
                  Except.ok (Value.dict rp) from ha)
              show Except.ok (eraseEntries (setKey es actual rv)) =
                Except.ok (setKey (eraseEntries es) actual (Value.dict rp))
              rw [eraseEntries_setKey, hrv]
            | error e2 =>
              rw [hpure] at ha
              exact Except.noConfusion
                (show Except.ok (ε := LegacyErr) (erase rv) = Except.error e2 from ha)
          | error e =>
            cases hpure : entriesGo (eraseEntries bm) (eraseEntries om) true with
            | ok rp =>
              rw [hpure] at ha
              exact Except.noConfusion
                (show Except.error (α := Value) e = Except.ok (Value.dict rp) from ha)
            | error e2 =>
              rw [hpure] at ha
              have he : e = e2 := by
                injection (show Except.error (α := Value) e = Except.error e2 from ha)
              subst he
              rfl
        | null => rfl
        | bool b3 => rfl
        | int n => rfl
        | float s2 => rfl
        | str s2 => rfl
        | list l3 xs => rfl
      | list lb2 bl =>
        cases v with
        | list lv ol =>
          show Except.ok (eraseEntries (setKey es actual (LValue.list st.1 (bl ++ ol)))) =
            Except.ok (setKey (eraseEntries es) actual
              (Value.list (eraseList bl ++ eraseList ol)))
          rw [eraseEntries_setKey]
          show Except.ok (setKey (eraseEntries es) actual
            (Value.list (eraseList (bl ++ ol)))) = _
          rw [eraseList_append]
        | null => rfl
        | bool b3 => rfl
        | int n => rfl
        | float s2 => rfl
        | str s2 => rfl
        | dict l3 ds => rfl
      | null => rfl
      | bool b3 => rfl
      | int n => rfl
      | float s2 => rfl
      | str s2 => rfl
termination_by v _ _ _ _ => (sizeOf v, 0)

/-- Erase-commutation for a plain key. -/
theorem plainGoL_erase : ∀ (v : LValue) (es : List (Str × LValue)) (lr : Nat)
    (key : Str) (ctx : Bool) (st : MSt),
    eraseExcEntries (plainGoL es lr key v ctx st).1 =
      plainGo (eraseEntries es) key (erase v) ctx
  | v, es, lr, key, ctx, st => by
    rw [plainGoL.eq_def, plainGo.eq_def]
    cases v with
    | dict lv om =>
      rw [lookupKey_eraseEntries]
      cases hl : lookupKey es key with
      | none =>
        show Except.ok (eraseEntries (setKey es key
            (deepcopyL (LValue.dict lv om) st.1).1)) =
          Except.ok (setKey (eraseEntries es) key (erase (LValue.dict lv om)))
        rw [eraseEntries_setKey, erase_deepcopyL]
      | some b =>
        cases b with
        | dict lb bm =>
          show eraseExcEntries ((if (ctx || hasDirectiveL (LValue.dict lv om)) = true then
                match dictsGoL (LValue.dict lb bm) om true st with
                | (Except.ok r, st2) => (Except.ok (setKey es key r), (st2.1, lr :: st2.2))
                | (Except.error e, st2) => (Except.error e, st2)
              else
                (Except.ok (setKey es key (deepcopyL (LValue.dict lv om) st.1).1),
                  ((deepcopyL (LValue.dict lv om) st.1).2, lr :: st.2)))).1 =
            (if (ctx || _has_merge_directive (erase (LValue.dict lv om))) = true then
              (entriesGo (eraseEntries bm) (eraseEntries om) true).map
                (fun r => setKey (eraseEntries es) key (Value.dict r))
            else Except.ok (setKey (eraseEntries es) key (Value.dict (eraseEntries om))))
          rw [hasDirectiveL_erase (LValue.dict lv om)]
          by_cases hs : (ctx || _has_merge_directive (erase (LValue.dict lv om))) = true
          · rw [if_pos hs, if_pos hs]
            have ha := dictsGoL_erase om lb bm true st
            rcases hgo : dictsGoL (LValue.dict lb bm) om true st with ⟨r, st2⟩
            rw [hgo] at ha
            cases r with
            | ok rv =>
              cases hpure : entriesGo (eraseEntries bm) (eraseEntries om) true with
              | ok rp =>
                rw [hpure] at ha
                have hrv : erase rv = Value.dict rp := by
                  injection (show Except.ok (ε := LegacyErr) (erase rv) =
                    Except.ok (Value.dict rp) from ha)
                show Except.ok (eraseEntries (setKey es key rv)) =
                  Except.ok (setKey (eraseEntries es) key (Value.dict rp))
                rw [eraseEntries_setKey, hrv]
              | error e2 =>
                rw [hpure] at ha
                exact Except.noConfusion
                  (show Except.ok (ε := LegacyErr) (erase rv) = Except.error e2 from ha)
            | error e =>
              cases hpure : entriesGo (eraseEntries bm) (eraseEntries om) true with
              | ok rp =>
                rw [hpure] at ha
                exact Except.noConfusion
                  (show Except.error (α := Value) e = Except.ok (Value.dict rp) from ha)
              | error e2 =>
                rw [hpure] at ha
                have he : e = e2 := by
                  injection (show Except.error (α := Value) e = Except.error e2 from ha)
                subst he
                rfl
          · rw [if_neg hs, if_neg hs]
            show Except.ok (eraseEntries (setKey es key
                (deepcopyL (LValue.dict lv om) st.1).1)) =
              Except.ok (setKey (eraseEntries es) key (Value.dict (eraseEntries om)))
            rw [eraseEntries_setKey, erase_deepcopyL]
            rfl
        | null =>
          show Except.ok (eraseEntries (setKey es key
              (deepcopyL (LValue.dict lv om) st.1).1)) =
            Except.ok (setKey (eraseEntries es) key (erase (LValue.dict lv om)))
          rw [eraseEntries_setKey, erase_deepcopyL]
        | bool b3 =>
          show Except.ok (eraseEntries (setKey es key
              (deepcopyL (LValue.dict lv om) st.1).1)) =
            Except.ok (setKey (eraseEntries es) key (erase (LValue.dict lv om)))
          rw [eraseEntries_setKey, erase_deepcopyL]
        | int n =>
          show Except.ok (eraseEntries (setKey es key
              (deepcopyL (LValue.dict lv om) st.1).1)) =
            Except.ok (setKey (eraseEntries es) key (erase (LValue.dict lv om)))
          rw [eraseEntries_setKey, erase_deepcopyL]
        | float s2 =>
          show Except.ok (eraseEntries (setKey es key
              (deepcopyL (LValue.dict lv om) st.1).1)) =
            Except.ok (setKey (eraseEntries es) key (erase (LValue.dict lv om)))
          rw [eraseEntries_setKey, erase_deepcopyL]
        | str s2 =>
          show Except.ok (eraseEntries (setKey es key
              (deepcopyL (LValue.dict lv om) st.1).1)) =
            Except.ok (setKey (eraseEntries es) key (erase (LValue.dict lv om)))
          rw [eraseEntries_setKey, erase_deepcopyL]
        | list l3 xs =>
          show Except.ok (eraseEntries (setKey es key
              (deepcopyL (LValue.dict lv om) st.1).1)) =
            Except.ok (setKey (eraseEntries es) key (erase (LValue.dict lv om)))
          rw [eraseEntries_setKey, erase_deepcopyL]
    | null =>
      show Except.ok (eraseEntries (setKey es key (deepcopyL LValue.null st.1).1)) =
        Except.ok (setKey (eraseEntries es) key (erase LValue.null))
      rw [eraseEntries_setKey, erase_deepcopyL]
    | bool b3 =>
      show Except.ok (eraseEntries (setKey es key (deepcopyL (LValue.bool b3) st.1).1)) =
        Except.ok (setKey (eraseEntries es) key (erase (LValue.bool b3)))
      rw [eraseEntries_setKey, erase_deepcopyL]
    | int n =>
      show Except.ok (eraseEntries (setKey es key (deepcopyL (LValue.int n) st.1).1)) =
        Except.ok (setKey (eraseEntries es) key (erase (LValue.int n)))
      rw [eraseEntries_setKey, erase_deepcopyL]
    | float s2 =>
      show Except.ok (eraseEntries (setKey es key (deepcopyL (LValue.float s2) st.1).1)) =
        Except.ok (setKey (eraseEntries es) key (erase (LValue.float s2)))
      rw [eraseEntries_setKey, erase_deepcopyL]
    | str s2 =>
      show Except.ok (eraseEntries (setKey es key (deepcopyL (LValue.str s2) st.1).1)) =
        Except.ok (setKey (eraseEntries es) key (erase (LValue.str s2)))
      rw [eraseEntries_setKey, erase_deepcopyL]
    | list l3 xs =>
      show Except.ok (eraseEntries (setKey es key (deepcopyL (LValue.list l3 xs) st.1).1)) =
        Except.ok (setKey (eraseEntries es) key (erase (LValue.list l3 xs)))
      rw [eraseEntries_setKey, erase_deepcopyL]
termination_by v _ _ _ _ _ => (sizeOf v, 0)

end

/-- Erase-commutation for the labelled legacy merge entry point: the
value part of the labelled run is the pure legacy merge of the erased
trees, for every fresh counter and log. -/
theorem merge_configsL_erase (b o : LValue) (ctx : Bool) (st : MSt) :
    eraseExc (merge_configsL b o ctx st).1 =
      merge_configs (erase b) (erase o) ctx := by
  cases b with
  | null =>
    rw [merge_configsL.eq_def, merge_configs.eq_def]
    exact congrArg Except.ok (erase_deepcopyL o st.1)
  | bool b1 =>
    rw [merge_configsL.eq_def, merge_configs.eq_def]
    exact congrArg Except.ok (erase_deepcopyL o st.1)
  | int n1 =>
    rw [merge_configsL.eq_def, merge_configs.eq_def]
    exact congrArg Except.ok (erase_deepcopyL o st.1)
  | float t1 =>
    rw [merge_configsL.eq_def, merge_configs.eq_def]
    exact congrArg Except.ok (erase_deepcopyL o st.1)
  | str t1 =>
    rw [merge_configsL.eq_def, merge_configs.eq_def]
    exact congrArg Except.ok (erase_deepcopyL o st.1)
  | list l1 ys =>
    rw [merge_configsL.eq_def, merge_configs.eq_def]
    exact congrArg Except.ok (erase_deepcopyL o st.1)
  | dict lb bs =>
    cases o with
    | dict lo os =>
      have h1 : merge_configsL (LValue.dict lb bs) (LValue.dict lo os) ctx st =
          dictsGoL (LValue.dict lb bs) os ctx st := by
        simp only [merge_configsL.eq_def]
      rw [h1, dictsGoL_erase os lb bs ctx st, merge_configs.eq_def]
      rfl
    | null =>
      rw [merge_configsL.eq_def, merge_configs.eq_def]
      exact congrArg Except.ok (erase_deepcopyL LValue.null st.1)
    | bool b2 =>
      rw [merge_configsL.eq_def, merge_configs.eq_def]
      exact congrArg Except.ok (erase_deepcopyL (LValue.bool b2) st.1)
    | int n2 =>
      rw [merge_configsL.eq_def, merge_configs.eq_def]
      exact congrArg Except.ok (erase_deepcopyL (LValue.int n2) st.1)
    | float t2 =>
      rw [merge_configsL.eq_def, merge_configs.eq_def]
      exact congrArg Except.ok (erase_deepcopyL (LValue.float t2) st.1)
    | str t2 =>
      rw [merge_configsL.eq_def, merge_configs.eq_def]
      exact congrArg Except.ok (erase_deepcopyL (LValue.str t2) st.1)
    | list l2 xs =>
      rw [merge_configsL.eq_def, merge_configs.eq_def]
      exact congrArg Except.ok (erase_deepcopyL (LValue.list l2 xs) st.1)

mutual

/-- Freshness of the mutation log through the dict-dict merge: the
counter grows and every new log entry is at least the ghost bound. -/
theorem dictsGoL_fresh : ∀ (os : List (Str × LValue)) (lb : Nat)
    (bm : List (Str × LValue)) (ctx : Bool) (st : MSt) (b : Nat), b ≤ st.1 →
    FreshOut st b (dictsGoL (LValue.dict lb bm) os ctx st)
  | os, lb, bm, ctx, st, b, hst => by
    have hstep : dictsGoL (LValue.dict lb bm) os ctx st =
        entriesGoL (dcEntries bm (st.1 + 1)).1 st.1 os ctx
          ((dcEntries bm (st.1 + 1)).2, st.2) := by
      rw [dictsGoL]
      rfl
    rw [hstep]
    have hc : st.1 ≤ (dcEntries bm (st.1 + 1)).2 :=
      le_trans (Nat.le_succ st.1) (dcEntries_mono bm (st.1 + 1))
    have h2 := entriesGoL_fresh os (dcEntries bm (st.1 + 1)).1 st.1 ctx
      ((dcEntries bm (st.1 + 1)).2, st.2) b hst (le_trans hst hc)
    exact ⟨le_trans hc h2.1, h2.2⟩
termination_by os _ _ _ _ _ _ => (sizeOf os, 3)

/-- Freshness of the mutation log through the entry loop. -/
theorem entriesGoL_fresh : ∀ (os : List (Str × LValue)) (es : List (Str × LValue))
    (lr : Nat) (ctx : Bool) (st : MSt) (b : Nat), b ≤ lr → b ≤ st.1 →
    FreshOut st b (entriesGoL es lr os ctx st)
  | [], es, lr, ctx, st, b, hlr, hst => by
    have h1 : entriesGoL es lr [] ctx st = (Except.ok (LValue.dict lr es), st) := by
      rw [entriesGoL]
    rw [h1]
    exact ⟨le_refl st.1, fun l hl => Or.inl hl⟩
  | (k, v) :: rest, es, lr, ctx, st, b, hlr, hst => by
    rw [entriesGoL]
    have h4 := entryGoL_fresh v es lr k ctx st b hlr hst
    rcases hstep : entryGoL es lr k v ctx st with ⟨r, st2⟩
    rw [hstep] at h4
    cases r with
    | ok res2 =>
      have h5 := entriesGoL_fresh rest res2 lr ctx st2 b hlr (le_trans hst h4.1)
      refine ⟨le_trans h4.1 h5.1, fun l hl => ?_⟩
      rcases h5.2 l hl with h6 | h6
      · exact h4.2 l h6
      · exact Or.inr h6
    | error e => exact ⟨h4.1, h4.2⟩
termination_by os _ _ _ _ _ _ _ => (sizeOf os, 2)

/-- Freshness of the mutation log through one entry. -/
theorem entryGoL_fresh : ∀ (v : LValue) (es : List (Str × LValue)) (lr : Nat)
    (k : Str) (ctx : Bool) (st : MSt) (b : Nat), b ≤ lr → b ≤ st.1 →
    FreshOut st b (entryGoL es lr k v ctx st)
  | v, es, lr, [], ctx, st, b, hlr, hst => by
    have h1 : entryGoL es lr [] v ctx st = plainGoL es lr [] v ctx st := by
      simp only [entryGoL.eq_def]
    rw [h1]
    exact plainGoL_fresh v es lr [] ctx st b hlr hst
  | v, es, lr, c :: actual, ctx, st, b, hlr, hst => by
    have h1 : entryGoL es lr (c :: actual) v ctx st =
        (if c = '~' then
          match lookupKey es actual with
          | none => (Except.error (LegacyErr.deleteMissing actual), st)
          | some _ => (Except.ok (delKey es actual), (st.1, lr :: st.2))
        else if c = '+' then plusGoL es lr actual v st
        else plainGoL es lr (c :: actual) v ctx st) := by
      simp only [entryGoL.eq_def]
    rw [h1]
    by_cases h3 : c = '~'
    · rw [if_pos h3]
      cases hl : lookupKey es actual with
      | none => exact ⟨le_refl st.1, fun l h6 => Or.inl h6⟩
      | some w =>
        refine ⟨le_refl st.1, fun l h6 => ?_⟩
        rcases List.mem_cons.mp h6 with h7 | h7
        · exact Or.inr (by rw [h7]; exact hlr)
        · exact Or.inl h7
    · rw [if_neg h3]
      by_cases h4 : c = '+'
      · rw [if_pos h4]
        exact plusGoL_fresh v es lr actual st b hlr hst
      · rw [if_neg h4]
        exact plainGoL_fresh v es lr (c :: actual) ctx st b hlr hst
termination_by v _ _ _ _ _ _ _ _ => (sizeOf v, 1)

/-- Freshness of the mutation log through the `+key` branch. -/
theorem plusGoL_fresh : ∀ (v : LValue) (es : List (Str × LValue)) (lr : Nat)
    (actual : Str) (st : MSt) (b : Nat), b ≤ lr → b ≤ st.1 →
    FreshOut st b (plusGoL es lr actual v st)
  | v, es, lr, actual, st, b, hlr, hst => by
    rw [plusGoL.eq_def]
    cases hl : lookupKey es actual with
    | none => exact ⟨le_refl st.1, fun l h6 => Or.inl h6⟩
    | some w =>
      cases w with
      | dict lb bm =>
        cases v with
        | dict lv om =>
          show FreshOut st b (match dictsGoL (LValue.dict lb bm) om true st with
            | (Except.ok r, st2) => (Except.ok (setKey es actual r), (st2.1, lr :: st2.2))
            | (Except.error e, st2) => (Except.error e, st2))
          have ha := dictsGoL_fresh om lb bm true st b hst
          rcases hgo : dictsGoL (LValue.dict lb bm) om true st with ⟨r, st2⟩
          rw [hgo] at ha
          cases r with
          | ok rv =>
            refine ⟨ha.1, fun l h6 => ?_⟩
            rcases List.mem_cons.mp h6 with h7 | h7
            · exact Or.inr (by rw [h7]; exact hlr)
            · exact ha.2 l h7
          | error e => exact ⟨ha.1, ha.2⟩
        | null => exact ⟨le_refl st.1, fun l h6 => Or.inl h6⟩
        | bool b3 => exact ⟨le_refl st.1, fun l h6 => Or.inl h6⟩
        | int n => exact ⟨le_refl st.1, fun l h6 => Or.inl h6⟩
        | float s2 => exact ⟨le_refl st.1, fun l h6 => Or.inl h6⟩
        | str s2 => exact ⟨le_refl st.1, fun l h6 => Or.inl h6⟩
        | list l3 xs => exact ⟨le_refl st.1, fun l h6 => Or.inl h6⟩
      | list lb2 bl =>
        cases v with
        | list lv ol =>
          refine ⟨Nat.le_succ st.1, fun l h6 => ?_⟩
          rcases List.mem_cons.mp h6 with h7 | h7
          · exact Or.inr (by rw [h7]; exact hlr)
          · exact Or.inl h7
        | null => exact ⟨le_refl st.1, fun l h6 => Or.inl h6⟩
        | bool b3 => exact ⟨le_refl st.1, fun l h6 => Or.inl h6⟩
        | int n => exact ⟨le_refl st.1, fun l h6 => Or.inl h6⟩
        | float s2 => exact ⟨le_refl st.1, fun l h6 => Or.inl h6⟩
        | str s2 => exact ⟨le_refl st.1, fun l h6 => Or.inl h6⟩
        | dict l3 ds => exact ⟨le_refl st.1, fun l h6 => Or.inl h6⟩
      | null => exact ⟨le_refl st.1, fun l h6 => Or.inl h6⟩
      | bool b3 => exact ⟨le_refl st.1, fun l h6 => Or.inl h6⟩
      | int n => exact ⟨le_refl st.1, fun l h6 => Or.inl h6⟩
      | float s2 => exact ⟨le_refl st.1, fun l h6 => Or.inl h6⟩
      | str s2 => exact ⟨le_refl st.1, fun l h6 => Or.inl h6⟩
termination_by v _ _ _ _ _ _ _ => (sizeOf v, 0)

/-- Freshness of the mutation log through a plain key. -/
theorem plainGoL_fresh : ∀ (v : LValue) (es : List (Str × LValue)) (lr : Nat)
    (key : Str) (ctx : Bool) (st : MSt) (b : Nat), b ≤ lr → b ≤ st.1 →
    FreshOut st b (plainGoL es lr key v ctx st)
  | v, es, lr, key, ctx, st, b, hlr, hst => by
    rw [plainGoL.eq_def]
    cases v with
    | dict lv om =>
      cases hl : lookupKey es key with
      | none =>
        refine ⟨deepcopyL_mono (LValue.dict lv om) st.1, fun l h6 => ?_⟩
        rcases List.mem_cons.mp h6 with h7 | h7
        · exact Or.inr (by rw [h7]; exact hlr)
        · exact Or.inl h7
      | some w =>
        cases w with
        | dict lb bm =>
          show FreshOut st b (if (ctx || hasDirectiveL (LValue.dict lv om)) = true then
              match dictsGoL (LValue.dict lb bm) om true st with
              | (Except.ok r, st2) => (Except.ok (setKey es key r), (st2.1, lr :: st2.2))
              | (Except.error e, st2) => (Except.error e, st2)
            else
              (Except.ok (setKey es key (deepcopyL (LValue.dict lv om) st.1).1),
                ((deepcopyL (LValue.dict lv om) st.1).2, lr :: st.2)))
          by_cases hs : (ctx || hasDirectiveL (LValue.dict lv om)) = true
          · rw [if_pos hs]
            have ha := dictsGoL_fresh om lb bm true st b hst
            rcases hgo : dictsGoL (LValue.dict lb bm) om true st with ⟨r, st2⟩
            rw [hgo] at ha
            cases r with
            | ok rv =>
              refine ⟨ha.1, fun l h6 => ?_⟩
              rcases List.mem_cons.mp h6 with h7 | h7
              · exact Or.inr (by rw [h7]; exact hlr)
              · exact ha.2 l h7
            | error e => exact ⟨ha.1, ha.2⟩
          · rw [if_neg hs]
            refine ⟨deepcopyL_mono (LValue.dict lv om) st.1, fun l h6 => ?_⟩
            rcases List.mem_cons.mp h6 with h7 | h7
            · exact Or.inr (by rw [h7]; exact hlr)
            · exact Or.inl h7
        | null =>
          refine ⟨deepcopyL_mono (LValue.dict lv om) st.1, fun l h6 => ?_⟩
          rcases List.mem_cons.mp h6 with h7 | h7
          · exact Or.inr (by rw [h7]; exact hlr)
          · exact Or.inl h7
        | bool b3 =>
          refine ⟨deepcopyL_mono (LValue.dict lv om) st.1, fun l h6 => ?_⟩
          rcases List.mem_cons.mp h6 with h7 | h7
          · exact Or.inr (by rw [h7]; exact hlr)
          · exact Or.inl h7
        | int n =>
          refine ⟨deepcopyL_mono (LValue.dict lv om) st.1, fun l h6 => ?_⟩
          rcases List.mem_cons.mp h6 with h7 | h7
          · exact Or.inr (by rw [h7]; exact hlr)
          · exact Or.inl h7
        | float s2 =>
          refine ⟨deepcopyL_mono (LValue.dict lv om) st.1, fun l h6 => ?_⟩
          rcases List.mem_cons.mp h6 with h7 | h7
          · exact Or.inr (by rw [h7]; exact hlr)
          · exact Or.inl h7
        | str s2 =>
          refine ⟨deepcopyL_mono (LValue.dict lv om) st.1, fun l h6 => ?_⟩
          rcases List.mem_cons.mp h6 with h7 | h7
          · exact Or.inr (by rw [h7]; exact hlr)
          · exact Or.inl h7
        | list l3 xs =>
          refine ⟨deepcopyL_mono (LValue.dict lv om) st.1, fun l h6 => ?_⟩
          rcases List.mem_cons.mp h6 with h7 | h7
          · exact Or.inr (by rw [h7]; exact hlr)
          · exact Or.inl h7
    | null =>
      refine ⟨deepcopyL_mono LValue.null st.1, fun l h6 => ?_⟩
      rcases List.mem_cons.mp h6 with h7 | h7
      · exact Or.inr (by rw [h7]; exact hlr)
      · exact Or.inl h7
    | bool b3 =>
      refine ⟨deepcopyL_mono (LValue.bool b3) st.1, fun l h6 => ?_⟩
      rcases List.mem_cons.mp h6 with h7 | h7
      · exact Or.inr (by rw [h7]; exact hlr)
      · exact Or.inl h7
    | int n =>
      refine ⟨deepcopyL_mono (LValue.int n) st.1, fun l h6 => ?_⟩
      rcases List.mem_cons.mp h6 with h7 | h7
      · exact Or.inr (by rw [h7]; exact hlr)
      · exact Or.inl h7
    | float s2 =>
      refine ⟨deepcopyL_mono (LValue.float s2) st.1, fun l h6 => ?_⟩
      rcases List.mem_cons.mp h6 with h7 | h7
      · exact Or.inr (by rw [h7]; exact hlr)
      · exact Or.inl h7
    | str s2 =>
      refine ⟨deepcopyL_mono (LValue.str s2) st.1, fun l h6 => ?_⟩
      rcases List.mem_cons.mp h6 with h7 | h7
      · exact Or.inr (by rw [h7]; exact hlr)
      · exact Or.inl h7
    | list l3 xs =>
      refine ⟨deepcopyL_mono (LValue.list l3 xs) st.1, fun l h6 => ?_⟩
      rcases List.mem_cons.mp h6 with h7 | h7
      · exact Or.inr (by rw [h7]; exact hlr)
      · exact Or.inl h7
termination_by v _ _ _ _ _ _ _ _ => (sizeOf v, 0)

end

/-- Freshness of the mutation log for the labelled legacy merge entry
point: the counter never decreases and every logged label is at least
the initial counter. -/
theorem merge_configsL_fresh (bse o : LValue) (ctx : Bool) (st : MSt) (b : Nat)
    (hst : b ≤ st.1) : FreshOut st b (merge_configsL bse o ctx st) := by
  cases bse with
  | null =>
    rw [merge_configsL.eq_def]
    exact ⟨deepcopyL_mono o st.1, fun l h6 => Or.inl h6⟩
  | bool b1 =>
    rw [merge_configsL.eq_def]
    exact ⟨deepcopyL_mono o st.1, fun l h6 => Or.inl h6⟩
  | int n1 =>
    rw [merge_configsL.eq_def]
    exact ⟨deepcopyL_mono o st.1, fun l h6 => Or.inl h6⟩
  | float t1 =>
    rw [merge_configsL.eq_def]
    exact ⟨deepcopyL_mono o st.1, fun l h6 => Or.inl h6⟩
  | str t1 =>
    rw [merge_configsL.eq_def]
    exact ⟨deepcopyL_mono o st.1, fun l h6 => Or.inl h6⟩
  | list l1 ys =>
    rw [merge_configsL.eq_def]
    exact ⟨deepcopyL_mono o st.1, fun l h6 => Or.inl h6⟩
  | dict lb bs =>
    cases o with
    | dict lo os =>
      have h1 : merge_configsL (LValue.dict lb bs) (LValue.dict lo os) ctx st =
          dictsGoL (LValue.dict lb bs) os ctx st := by
        simp only [merge_configsL.eq_def]
      rw [h1]
      exact dictsGoL_fresh os lb bs ctx st b hst
    | null =>
      rw [merge_configsL.eq_def]
      exact ⟨deepcopyL_mono LValue.null st.1, fun l h6 => Or.inl h6⟩
    | bool b2 =>
      rw [merge_configsL.eq_def]
      exact ⟨deepcopyL_mono (LValue.bool b2) st.1, fun l h6 => Or.inl h6⟩
    | int n2 =>
      rw [merge_configsL.eq_def]
      exact ⟨deepcopyL_mono (LValue.int n2) st.1, fun l h6 => Or.inl h6⟩
    | float t2 =>
      rw [merge_configsL.eq_def]
      exact ⟨deepcopyL_mono (LValue.float t2) st.1, fun l h6 => Or.inl h6⟩
    | str t2 =>
      rw [merge_configsL.eq_def]
      exact ⟨deepcopyL_mono (LValue.str t2) st.1, fun l h6 => Or.inl h6⟩
    | list l2 xs =>
      rw [merge_configsL.eq_def]
      exact ⟨deepcopyL_mono (LValue.list l2 xs) st.1, fun l h6 => Or.inl h6⟩

/-- **C9.** `merge_configs` (`merge.py`) is pure.  In the labelled-tree
model of the Python heap, (1) the merged value is determined by the
label-erased values of `base` and `override` alone, independently of the
heap state, so equal inputs always give equal outputs; and (2) when the
run starts with a fresh-label counter above every label of `base`, no
in-place dict write or delete (the mutation log of the run) ever touches
an object of the `base` tree: `result = deepcopy(base)` shields the base
from mutation. -/
theorem merge_configs_pure (bse o : LValue) (ctx : Bool) (f : Nat)
    (hb : ∀ l ∈ labelsOf bse, l < f) :
    (∀ st : MSt, eraseExc (merge_configsL bse o ctx st).1 =
        merge_configs (erase bse) (erase o) ctx) ∧
    (∀ l ∈ (merge_configsL bse o ctx (f, [])).2.2, l ∉ labelsOf bse) := by
  refine ⟨fun st => merge_configsL_erase bse o ctx st, fun l hl hmem => ?_⟩
  rcases (merge_configsL_fresh bse o ctx (f, []) f (le_refl f)).2 l hl with h2 | h2
  · exact absurd h2 (List.not_mem_nil l)
  · exact absurd (hb l hmem) (Nat.not_lt.mpr h2)

/-- Witness for C9 at concrete labelled dicts. -/
theorem merge_configs_pure_witness :
    (∀ l ∈ labelsOf (LValue.dict 5 [("a".data, LValue.int 1)]), l < 10) ∧
    ((∀ st : MSt, eraseExc (merge_configsL (LValue.dict 5 [("a".data, LValue.int 1)])
          (LValue.dict 7 [("a".data, LValue.int 2)]) false st).1 =
        merge_configs (erase (LValue.dict 5 [("a".data, LValue.int 1)]))
          (erase (LValue.dict 7 [("a".data, LValue.int 2)])) false) ∧
      (∀ l ∈ (merge_configsL (LValue.dict 5 [("a".data, LValue.int 1)])
          (LValue.dict 7 [("a".data, LValue.int 2)]) false (10, [])).2.2,
        l ∉ labelsOf (LValue.dict 5 [("a".data, LValue.int 1)]))) :=
  ⟨by decide, merge_configs_pure (LValue.dict 5 [("a".data, LValue.int 1)])
    (LValue.dict 7 [("a".data, LValue.int 2)]) false 10 (by decide)⟩

end Legacy

end Sparkwheel
